import Mathlib

/-!
Shallow embedding of the simulation core of a sliding-tile (2048-style)
puzzle: cell values, grid positions, per-direction traversal maps, the
action log, and the board engine with its line compaction/merge planner.
Each definition mirrors the corresponding item of the Rust source
(`src/tile/value.rs`, `src/tile/position.rs`, `src/direction.rs`,
`src/action.rs`, `src/board.rs`).
-/

set_option maxHeartbeats 1000000

namespace Rust2048

/-- Cell content (`Value` in `src/tile/value.rs`): empty, or a numeric tile.
The source stores the number as a `u32`; every board considered by the
claims keeps tile values at or below 2048, far from `u32` overflow, so the
payload is embedded as `Nat`. -/
inductive Value where
  | Empty : Value
  | Number : Nat → Value
deriving DecidableEq

/-- `MAX_TILE_VALUE` from `src/tile/value.rs`. -/
def MAX_TILE_VALUE : Nat := 2048

/-- `Value::merge` from `src/tile/value.rs`: empty yields the other value;
two numbers add; a number merged with empty stays itself. -/
def Value.merge : Value → Value → Value
  | .Empty, other => other
  | .Number n, .Number m => .Number (n + m)
  | .Number n, .Empty => .Number n

/-- Fuelled count of trailing zero bits, mirroring `u32::trailing_zeros`
(`0` has 32 trailing zeros at width 32). -/
def trailingZerosAux : Nat → Nat → Nat
  | 0, _ => 0
  | fuel + 1, n => if n % 2 = 1 then 0 else trailingZerosAux fuel (n / 2) + 1

/-- `u32::trailing_zeros` at width 32. -/
def u32TrailingZeros (n : Nat) : Nat := trailingZerosAux 32 n

/-- `Value::to_exponent` from `src/tile/value.rs`. -/
def Value.to_exponent : Value → Nat
  | .Empty => 0
  | .Number n => u32TrailingZeros n

/-- The `fmt::Display` impl for `Value` in `src/tile/value.rs`: one character
indexed by the exponent, with a fallback of `'0'` for out-of-range
exponents. -/
def Value.toChar (v : Value) : Char :=
  match v.to_exponent with
  | 0 => '0'
  | 1 => '1'
  | 2 => '2'
  | 3 => '3'
  | 4 => '4'
  | 5 => '5'
  | 6 => '6'
  | 7 => '7'
  | 8 => '8'
  | 9 => '9'
  | 10 => 'A'
  | 11 => 'B'
  | _ => '0'

/-- The `FromStr` impl for `Value` in `src/tile/value.rs`, applied (as in
`Board::from_str`) to a single character. -/
def Value.from_char : Char → Option Value
  | '0' => some Value.Empty
  | '1' => some (Value.Number 2)
  | '2' => some (Value.Number 4)
  | '3' => some (Value.Number 8)
  | '4' => some (Value.Number 16)
  | '5' => some (Value.Number 32)
  | '6' => some (Value.Number 64)
  | '7' => some (Value.Number 128)
  | '8' => some (Value.Number 256)
  | '9' => some (Value.Number 512)
  | 'A' => some (Value.Number 1024)
  | 'B' => some (Value.Number 2048)
  | _ => none

/-- Grid coordinate (`Position` in `src/tile/position.rs`). -/
structure Position where
  row : Nat
  col : Nat
deriving DecidableEq

/-- Move direction (`src/direction.rs`). -/
inductive Direction where
  | Left : Direction
  | Right : Direction
  | Up : Direction
  | Down : Direction
deriving DecidableEq

/-- `Position::generate_line_traversal` from `src/tile/position.rs`. -/
def Position.generate_line_traversal (size : Nat) (transpose mirror : Bool) :
    List (List Position) :=
  let range_eye : List Nat := List.range size
  let range_inv : List Nat := (List.range size).reverse
  let cols := if mirror then range_inv else range_eye
  range_eye.map (fun row =>
    cols.map (fun col =>
      if transpose then Position.mk col row else Position.mk row col))

/-- `Position::generate_traversal_map` from `src/tile/position.rs`, as the
function it tabulates (the source stores the four entries in a `HashMap`
built once at construction). -/
def Position.generate_traversal_map (size : Nat) : Direction → List (List Position)
  | .Left => Position.generate_line_traversal size false false
  | .Right => Position.generate_line_traversal size false true
  | .Up => Position.generate_line_traversal size true false
  | .Down => Position.generate_line_traversal size true true

/-- `Tile` (value at a position) from `src/tile/mod.rs` / `src/board.rs`. -/
structure Tile where
  value : Value
  position : Position
deriving DecidableEq

/-- `Action` from `src/action.rs`. -/
inductive Action where
  | SpawnRandomTile : Tile → Action
  | SlideTile : Tile → Position → Action
  | MergeTiles : Tile → Tile → Position → Value → Action
deriving DecidableEq

/-- `Board` from `src/board.rs`: the source keeps a `HashMap` whose domain
is exactly the `size × size` grid; it is embedded as a total function on
positions (off-grid positions are never read or written by the engine). -/
structure Board where
  size : Nat
  tiles : Position → Value

/-- `Board::new`: every grid cell starts `Empty`. -/
def Board.new (size : Nat) : Board :=
  { size := size, tiles := fun _ => Value.Empty }

/-- `Board::set_value`. -/
def Board.set_value (b : Board) (p : Position) (v : Value) : Board :=
  { b with tiles := fun q => if q = p then v else b.tiles q }

/-- `Board::get_value`. -/
def Board.get_value (b : Board) (p : Position) : Value := b.tiles p

/-- `Board::get_tile`. -/
def Board.get_tile (b : Board) (p : Position) : Tile :=
  { value := b.get_value p, position := p }

/-- `Board::apply`, the sole state mutator. -/
def Board.apply (b : Board) (e : Action) : Board :=
  match e with
  | .SpawnRandomTile t => b.set_value t.position t.value
  | .SlideTile t dest => (b.set_value t.position Value.Empty).set_value dest t.value
  | .MergeTiles t1 t2 dest v =>
      ((b.set_value t1.position Value.Empty).set_value t2.position Value.Empty).set_value dest v

/-- Sequential application of an action list (the loop in
`Board::slide_and_merge`). -/
def applyEvents (es : List Action) (b : Board) : Board :=
  es.foldl Board.apply b

/-- The local mutable state of the loop in `Board::slide_and_merge_line`:
the emitted events, the working copy `board_clone`, `focus_idx`, `prev`,
`deferred_slide` and `deferred`.  (`deferred_slide` is written but never
read by the source; it is kept for faithfulness.) -/
structure LineState where
  events : List Action
  board : Board
  focus_idx : Nat
  prev : Option (Nat × Nat)
  deferred_slide : Option Action
  deferred : Option (Tile × Position)

/-- One iteration of the `for current_cell in line_traversal` loop of
`Board::slide_and_merge_line`. -/
def lineStep (lt : List Position) (st : LineState) (cur : Position) : LineState :=
  let focus_cell := lt.getD st.focus_idx ⟨0, 0⟩
  let can_slide := cur ≠ focus_cell
  match st.board.tiles cur with
  | Value.Empty => st
  | Value.Number current_value =>
    match st.prev with
    | some (prev_idx, prev_value) =>
      let prev_cell := lt.getD prev_idx ⟨0, 0⟩
      if prev_value = current_value ∧ prev_value < MAX_TILE_VALUE then
        let tp : Tile × Position × Option Action :=
          match st.deferred with
          | some (t, p) => (t, p, none)
          | none => (st.board.get_tile prev_cell, prev_cell, st.deferred_slide)
        let tile2 := st.board.get_tile cur
        let value := tp.1.value.merge tile2.value
        let e := Action.MergeTiles tp.1 tile2 tp.2.1 value
        { events := st.events ++ [e]
          board := st.board.apply e
          focus_idx := st.focus_idx
          prev := none
          deferred_slide := tp.2.2
          deferred := none }
      else
        let st1 :=
          if can_slide then
            let st' :=
              match st.deferred with
              | some (t, p) =>
                  let e := Action.SlideTile t p
                  { st with events := st.events ++ [e]
                            board := st.board.apply e
                            deferred := none }
              | none => st
            let tile := st'.board.get_tile cur
            let e := Action.SlideTile tile focus_cell
            { st' with deferred := some (tile, focus_cell)
                       deferred_slide := some e }
          else st
        { st1 with prev := some (st.focus_idx, current_value)
                   focus_idx := st.focus_idx + 1 }
    | none =>
      let st1 :=
        if can_slide then
          let tile := st.board.get_tile cur
          let e := Action.SlideTile tile focus_cell
          { st with deferred := some (tile, focus_cell)
                    deferred_slide := some e }
        else st
      { st1 with prev := some (st.focus_idx, current_value)
                 focus_idx := st.focus_idx + 1 }

/-- The trailing `if let Some((tile, pos)) = deferred.take()` flush of
`Board::slide_and_merge_line`. -/
def lineFlush (st : LineState) : LineState :=
  match st.deferred with
  | some (t, pos) =>
      let e := Action.SlideTile t pos
      { st with events := st.events ++ [e]
                board := st.board.apply e
                deferred := none }
  | none => st

/-- `Board::slide_and_merge_line`: run the loop over the line on a working
copy of the board and return the emitted events. -/
def Board.slide_and_merge_line (b : Board) (lt : List Position) : List Action :=
  (lineFlush (lt.foldl (lineStep lt) ⟨[], b, 0, none, none, none⟩)).events

/-- `Board::plan_slide_and_merge`: concatenate the per-line event lists, in
traversal-map line order. -/
def Board.plan_slide_and_merge (b : Board) (d : Direction) : List Action :=
  (Position.generate_traversal_map b.size d).foldl
    (fun events line => events ++ b.slide_and_merge_line line) []

/-- `Board::slide_and_merge`: plan, apply every event in order, and report
whether the plan was non-empty. -/
def Board.slide_and_merge (b : Board) (d : Direction) : Bool × Board :=
  let events := b.plan_slide_and_merge d
  (!events.isEmpty, applyEvents events b)

/-- The `fmt::Display` impl for `Board`: all cells in Left-traversal
(row-major) order, one character each. -/
def Board.toText (b : Board) : String :=
  ⟨((Position.generate_traversal_map b.size Direction.Left).flatten).map
      (fun p => (b.get_value p).toChar)⟩

/-- One step of the decoding loop of `Board::from_str`: decode character
`ic.2` (the `i`-th character, `i = ic.1`) and store it at cell
`(i / 4, i % 4)`, propagating any earlier failure. -/
def decodeStep (ob : Option Board) (ic : Nat × Char) : Option Board :=
  ob.bind (fun b =>
    (Value.from_char ic.2).map (fun v => b.set_value ⟨ic.1 / 4, ic.1 % 4⟩ v))

/-- The `FromStr` impl for `Board` in `src/board.rs`: exactly 16 characters,
each decoded through `Value::from_str` into cell `(i / 4, i % 4)`; any
failure yields no board at all. -/
def Board.from_str (s : String) : Option Board :=
  if s.length = 16 then
    s.data.enum.foldl decodeStep (some (Board.new 4))
  else
    none

/-- The `empty_positions` vector built by `Board::plan_spawn_random_tile`:
all positions holding `Empty`, in Left-traversal order. -/
def Board.emptyPositions (b : Board) : List Position :=
  ((Position.generate_traversal_map b.size Direction.Left).flatten).filter
    (fun p => b.get_value p = Value.Empty)

/-- Abstract interface of the random generator used by
`Board::plan_spawn_random_tile` (a `ChaCha8Rng` in the source; the two
primitives the engine calls are `gen_range(0..n)`, which draws a number
below `n`, and `gen_bool(0.9)`, which draws `true` with probability 0.9 —
both from the external `rand` crate, abstracted here as deterministic
state-passing functions). -/
structure RandGen (σ : Type) where
  gen_range : Nat → σ → Nat × σ
  gen_bool : σ → Bool × σ

/-- `Board::plan_spawn_random_tile`: collect the empty positions in
Left-traversal order; if none, no action; otherwise draw one uniformly and
a value of 2 (on a 0.9-probability `true`) or 4, returning the spawn action
together with the advanced generator state. -/
def Board.plan_spawn_random_tile {σ : Type} (g : RandGen σ) (b : Board) (s : σ) :
    Option Action × σ :=
  let empty_positions := b.emptyPositions
  if empty_positions.isEmpty = false then
    let r1 := g.gen_range empty_positions.length s
    let r2 := g.gen_bool r1.2
    let rand_value : Nat := if r2.1 then 2 else 4
    (some (Action.SpawnRandomTile
      { value := Value.Number rand_value
        position := empty_positions.getD r1.1 ⟨0, 0⟩ }), r2.2)
  else
    (none, s)

/-- All grid positions of a size-`n` board, enumerated in Left-traversal
(row-major) order — the enumeration the source itself uses for display,
decoding and spawn planning. -/
def gridPositions (n : Nat) : List Position :=
  (Position.generate_traversal_map n Direction.Left).flatten

/-- A trivially deterministic generator (always index 0, always `true`)
used to instantiate theorems about the spawn planner. -/
def unitRandGen : RandGen Unit :=
  { gen_range := fun _ _ => (0, ()), gen_bool := fun _ => (true, ()) }

/-- A cell value a reachable board may hold: `Empty`, or a power of two
between 2 and 2048 (the claims' phrasing of the MAX_TILE_VALUE invariant). -/
def Value.Admissible (v : Value) : Prop :=
  v = Value.Empty ∨ ∃ k, 1 ≤ k ∧ k ≤ 11 ∧ v = Value.Number (2 ^ k)

instance : DecidablePred Value.Admissible := fun v =>
  decidable_of_iff (v = Value.Empty ∨ ∃ k ∈ List.range 12, 1 ≤ k ∧ v = Value.Number (2 ^ k))
    (by
      apply or_congr Iff.rfl
      constructor
      · rintro ⟨k, hk, h1, h2⟩
        exact ⟨k, h1, by simpa using Nat.lt_succ_iff.mp (List.mem_range.mp hk), h2⟩
      · rintro ⟨k, h1, h2, h3⟩
        exact ⟨k, List.mem_range.mpr (Nat.lt_succ_iff.mpr h2), h1, h3⟩)

/-- Every grid cell of the board holds an admissible value. -/
def Board.Admissible (b : Board) : Prop :=
  ∀ p ∈ gridPositions b.size, Value.Admissible (b.tiles p)

instance (b : Board) : Decidable b.Admissible :=
  inferInstanceAs (Decidable (∀ p ∈ gridPositions b.size, Value.Admissible (b.tiles p)))

/-- Equality of two boards' observable state: same value at every grid
position (the source board's `HashMap` domain is exactly the grid). -/
def Board.gridEq (b1 b2 : Board) : Prop :=
  ∀ p ∈ gridPositions b1.size, b1.tiles p = b2.tiles p

instance (b1 b2 : Board) : Decidable (b1.gridEq b2) :=
  inferInstanceAs (Decidable (∀ p ∈ gridPositions b1.size, b1.tiles p = b2.tiles p))

/-- Modelled from the claims' words (C1, spec §4.3): the numbers of the
non-empty cells of a line, in scan order — the compaction of the line. -/
def compactLine (vs : List Value) : List Nat :=
  vs.filterMap (fun v => match v with | Value.Empty => none | Value.Number n => some n)

/-- Modelled from the claims' words (C1): pair consecutive equal values
below 2048 from the compaction edge outward, merging each such pair exactly
once into its doubled value. -/
def mergePairs : List Nat → List Nat
  | a :: c :: rest =>
      if a = c ∧ a < 2048 then (2 * a) :: mergePairs rest else a :: mergePairs (c :: rest)
  | l => l

/-- Modelled from the claims' words (C1): the classic 2048 result of one
traversal line — compact toward index 0, merge pairs, pad with `Empty`. -/
def classicLineResult (vs : List Value) : List Value :=
  (mergePairs (compactLine vs)).map Value.Number
    ++ List.replicate (vs.length - (mergePairs (compactLine vs)).length) Value.Empty

/-- Modelled from the claim's words (C3): the position the claim says line
`i`, slot `j` of the direction-`d` traversal of a size-`n` grid holds. -/
def traversalSpecPos : Direction → Nat → Nat → Nat → Position
  | Direction.Left, _, i, j => ⟨i, j⟩
  | Direction.Right, n, i, j => ⟨i, n - 1 - j⟩
  | Direction.Up, _, i, j => ⟨j, i⟩
  | Direction.Down, n, i, j => ⟨n - 1 - j, i⟩

/-- Destination cell written by an action. -/
def Action.destPos : Action → Position
  | Action.SpawnRandomTile t => t.position
  | Action.SlideTile _ dest => dest
  | Action.MergeTiles _ _ dest _ => dest

/-- Source cells an action consumes (cleared by `Board::apply`). -/
def Action.srcPositions : Action → List Position
  | Action.SpawnRandomTile _ => []
  | Action.SlideTile t _ => [t.position]
  | Action.MergeTiles t1 t2 _ _ => [t1.position, t2.position]

/-- Whether an action is a `MergeTiles`. -/
def Action.isMerge : Action → Bool
  | Action.MergeTiles _ _ _ _ => true
  | _ => false

/-- All cells an action reads or writes. -/
def Action.touchedPositions (e : Action) : List Position :=
  e.srcPositions ++ [e.destPos]

/-- Element `j` of a line, with a dummy default (the source indexes the
line vector directly; every index used is in range). -/
def pAt (lt : List Position) (j : Nat) : Position :=
  lt.getD j ⟨0, 0⟩

/-- Incremental form of the classic line result: state is (finished merged
values, optional trailing value that may still merge). -/
def stepSpec : List Nat × Option Nat → Value → List Nat × Option Nat
  | acc, Value.Empty => acc
  | (done, none), Value.Number v => (done, some v)
  | (done, some p), Value.Number v =>
      if p = v ∧ p < MAX_TILE_VALUE then (done ++ [2 * p], none) else (done ++ [p], some v)

/-- An optional value as a (zero- or one-element) list. -/
def optList : Option Nat → List Nat
  | none => []
  | some x => [x]

/-- How many values an optional value holds. -/
def pendCount : Option Nat → Nat
  | none => 0
  | some _ => 1

/-- Finished merged values after scanning the first `k` cells of line `lt`
of board `b`. -/
def specDone (b : Board) (lt : List Position) (k : Nat) : List Nat :=
  (((lt.take k).map b.tiles).foldl stepSpec ([], none)).1

/-- The still-mergeable trailing value after scanning the first `k` cells. -/
def specPend (b : Board) (lt : List Position) (k : Nat) : Option Nat :=
  (((lt.take k).map b.tiles).foldl stepSpec ([], none)).2

/-- The value the planner's working copy holds at line slot `j`, given the
finished values, the pending value, and the line index (if any) at which a
deferred (not yet applied) slide's tile still sits. -/
def cloneVal (done : List Nat) (pend : Option Nat) (dm : Option Nat) (j : Nat) : Value :=
  if j < done.length then Value.Number (done.getD j 0)
  else
    match pend, dm with
    | some x, some m => if j = m then Value.Number x else Value.Empty
    | some x, none => if j = done.length then Value.Number x else Value.Empty
    | none, _ => Value.Empty

/-- What the planner's emitted actions may carry for a given board and
line: slides move an existing non-empty cell value of the line; merges pair
two equal below-maximum values present on the line and produce their sum;
spawns never occur. -/
def ActionValuesOK (b : Board) (lt : List Position) : Action → Prop
  | Action.SpawnRandomTile _ => False
  | Action.SlideTile t _ => (∃ p, p ∈ lt ∧ t.value = b.tiles p) ∧ t.value ≠ Value.Empty
  | Action.MergeTiles t1 t2 _ v =>
      ∃ x, t1.value = Value.Number x ∧ t2.value = Value.Number x
        ∧ x < MAX_TILE_VALUE ∧ (∃ p, p ∈ lt ∧ b.tiles p = Value.Number x)
        ∧ v = Value.Number (x + x)

/-- The loop invariant of `Board::slide_and_merge_line` after the first `k`
cells of line `lt` of board `b` have been scanned.  `dm` is the (ghost)
line index at which the deferred slide's tile still sits, if any. -/
structure LineInv (b : Board) (lt : List Position) (k : Nat) (dm : Option Nat)
    (st : LineState) : Prop where
  hk : k ≤ lt.length
  size_eq : st.board.size = b.size
  focus : st.focus_idx = (specDone b lt k).length + pendCount (specPend b lt k)
  prev : st.prev = (specPend b lt k).map (fun x => ((specDone b lt k).length, x))
  pendSrc : ∀ x, specPend b lt k = some x → ∃ j, j < k ∧ b.tiles (pAt lt j) = Value.Number x
  defNone : dm = none → st.deferred = none
  defSome : ∀ m, dm = some m →
    ∃ x, specPend b lt k = some x
      ∧ (specDone b lt k).length + 1 ≤ m ∧ m < k
      ∧ st.deferred = some (⟨Value.Number x, pAt lt m⟩, pAt lt (specDone b lt k).length)
      ∧ b.tiles (pAt lt m) = Value.Number x
  boardLine : ∀ j, j < k →
    st.board.tiles (pAt lt j) = cloneVal (specDone b lt k) (specPend b lt k) dm j
  boardRest : ∀ j, k ≤ j → j < lt.length → st.board.tiles (pAt lt j) = b.tiles (pAt lt j)
  boardOff : ∀ p, p ∉ lt → st.board.tiles p = b.tiles p
  replay : st.board = applyEvents st.events b
  stable : (st.events = [] ∧ st.deferred = none)
    ↔ ∀ j, j < k → b.tiles (pAt lt j) = cloneVal (specDone b lt k) (specPend b lt k) none j
  evDest : ∀ e ∈ st.events, ∃ j, j < st.focus_idx ∧ Action.destPos e = pAt lt j
  evSrc : ∀ e ∈ st.events, ∀ p ∈ e.srcPositions, ∃ j, j < k ∧ p = pAt lt j
  destNodup : (st.events.map Action.destPos).Nodup
  srcNodup : ((st.events.map Action.srcPositions).flatten).Nodup
  prevFreeDest : ∀ s v, st.prev = some (s, v) → pAt lt s ∉ st.events.map Action.destPos
  prevFreeSrc : ∀ s v, st.prev = some (s, v) → st.deferred = none →
    pAt lt s ∉ (st.events.map Action.srcPositions).flatten
  defFreeSrc : ∀ m, dm = some m →
    pAt lt m ∉ (st.events.map Action.srcPositions).flatten
  mergeLater : List.Pairwise
    (fun e1 e2 => e1.isMerge = true → Action.destPos e1 ∉ e2.srcPositions) st.events
  mergeDestLow : ∀ e ∈ st.events, e.isMerge = true →
    ∃ s, Action.destPos e = pAt lt s ∧ s < st.focus_idx
      ∧ (∀ s' v, st.prev = some (s', v) → s < s')
      ∧ (∀ m, dm = some m → s < m)
  evValues : ∀ e ∈ st.events, ActionValuesOK b lt e

/-!
## Theorems
-/

/-- Reading a cell after `Board::set_value`. -/
theorem Board.tiles_set_value (b : Board) (p : Position) (v : Value) (q : Position) :
    (b.set_value p v).tiles q = if q = p then v else b.tiles q := rfl

/-- `set_value` does not change the board size. -/
theorem Board.size_set_value (b : Board) (p : Position) (v : Value) :
    (b.set_value p v).size = b.size := rfl

/-- C10: `Value::merge` with a `Number` first argument and `Empty` second
argument returns the first argument unchanged. -/
theorem merge_number_empty (n : Nat) :
    Value.merge (Value.Number n) Value.Empty = Value.Number n := rfl

/-- C2 counterexample: decoding `"1110000000000000"` and moving Right does
return exactly 2 actions with `moved = true`, but the resulting board
re-encodes to `"0012000000000000"` (as the source's own unit test asserts),
not to the claimed `"0000000200020000"`. -/
theorem slide_right_1110_counterexample :
    (Board.from_str "1110000000000000").map
        (fun b => ((b.plan_slide_and_merge Direction.Right).length,
                   (b.slide_and_merge Direction.Right).1,
                   (b.slide_and_merge Direction.Right).2.toText))
      = some (2, true, "0012000000000000")
    ∧ "0012000000000000" ≠ "0000000200020000" := by
  constructor
  · rfl
  · decide

/-- C2 (amended): decoding `"1110000000000000"` and moving Right yields
exactly 2 planned actions, `moved = true`, and final board text
`"0012000000000000"` — the merge lands at the rightmost column and the
remaining tile slides adjacent to it. -/
theorem slide_right_1110_amended :
    (Board.from_str "1110000000000000").map
        (fun b => ((b.plan_slide_and_merge Direction.Right).length,
                   (b.slide_and_merge Direction.Right).1,
                   (b.slide_and_merge Direction.Right).2.toText))
      = some (2, true, "0012000000000000") := by rfl

/-- A character decodes to no value exactly when it lies outside the
alphabet `0123456789AB`. -/
theorem from_char_eq_none_iff (c : Char) :
    Value.from_char c = none ↔ c ∉ ("0123456789AB" : String).data := by
  unfold Value.from_char
  split
  all_goals simp_all [String.data]

/-- The decoding fold of `Board::from_str` never recovers from `none`. -/
theorem from_str_foldl_none (l : List (Nat × Char)) :
    l.foldl decodeStep none = none := by
  induction l with
  | nil => rfl
  | cons ic t ih => simpa [decodeStep] using ih

/-- The decoding fold of `Board::from_str` fails exactly when some
character fails to decode. -/
theorem from_str_foldl_eq_none_iff (l : List (Nat × Char)) (b : Board) :
    l.foldl decodeStep (some b) = none ↔ ∃ ic ∈ l, Value.from_char ic.2 = none := by
  induction l generalizing b with
  | nil => simp
  | cons ic t ih =>
      rcases h : Value.from_char ic.2 with _ | v
      · rw [List.foldl_cons, show decodeStep (some b) ic = none by simp [decodeStep, h],
          from_str_foldl_none]
        simp [h]
      · rw [List.foldl_cons, show decodeStep (some b) ic
            = some (b.set_value ⟨ic.1 / 4, ic.1 % 4⟩ v) by simp [decodeStep, h], ih]
        simp [h]

/-- C6: decoding a string into a board fails exactly when the length is not
16 or some character lies outside the alphabet `0123456789AB`; the failure
result carries no board at all (the result type holds either a complete
board or nothing). -/
theorem from_str_fails_iff (s : String) :
    Board.from_str s = none
      ↔ (s.length ≠ 16 ∨ ∃ c ∈ s.data, c ∉ ("0123456789AB" : String).data) := by
  by_cases hl : s.length = 16
  · rw [Board.from_str, if_pos hl, from_str_foldl_eq_none_iff]
    constructor
    · rintro ⟨ic, hm, hc⟩
      exact Or.inr ⟨ic.2, by simpa using List.mem_map_of_mem Prod.snd hm,
        (from_char_eq_none_iff ic.2).mp hc⟩
    · rintro (h | ⟨c, hm, hc⟩)
      · exact absurd hl h
      · obtain ⟨ic, hmem, hsnd⟩ := List.mem_map.mp (by simpa using hm :
          c ∈ s.data.enum.map Prod.snd)
        exact ⟨ic, hmem, hsnd ▸ (from_char_eq_none_iff c).mpr hc⟩
  · rw [Board.from_str, if_neg hl]
    simp [hl]

/-- An admissible value decodes back from its display character. -/
theorem from_char_toChar (v : Value) (h : v.Admissible) :
    Value.from_char v.toChar = some v := by
  rcases h with h | ⟨k, h1, h2, h3⟩
  · subst h; rfl
  · subst h3
    interval_cases k <;> rfl

/-- The characters of a board's text encoding: one display character per
grid position, in Left-traversal order. -/
theorem toText_data (b : Board) :
    b.toText.data = (gridPositions b.size).map (fun p => (b.tiles p).toChar) := rfl

/-- The grid of a size-4 board, as indexed cells `i ↦ (i / 4, i % 4)`. -/
theorem gridPositions_four :
    gridPositions 4 = (List.range 16).map (fun i => (⟨i / 4, i % 4⟩ : Position)) := by decide

/-- Two folds agree when the functions agree on the list's elements. -/
theorem foldl_congr_mem {α β : Type} (l : List α) (f g : β → α → β) (init : β)
    (h : ∀ acc x, x ∈ l → f acc x = g acc x) : l.foldl f init = l.foldl g init := by
  induction l generalizing init with
  | nil => rfl
  | cons x t ih =>
      rw [List.foldl_cons, List.foldl_cons, h init x (List.mem_cons_self x t)]
      exact ih _ (fun acc y hy => h acc y (List.mem_cons_of_mem x hy))

/-- Decoding the display characters of admissible cells stores exactly
those cells' values. -/
theorem decode_fold_of_admissible (b : Board) (l : List (Nat × Position))
    (h : ∀ ip ∈ l, Value.Admissible (b.tiles ip.2)) (acc : Board) :
    l.foldl (fun ob ip => decodeStep ob (ip.1, (b.tiles ip.2).toChar)) (some acc)
      = some (l.foldl (fun bb ip => bb.set_value ⟨ip.1 / 4, ip.1 % 4⟩ (b.tiles ip.2)) acc) := by
  induction l generalizing acc with
  | nil => rfl
  | cons ip t ih =>
      rw [List.foldl_cons, List.foldl_cons,
        show decodeStep (some acc) (ip.1, (b.tiles ip.2).toChar)
          = some (acc.set_value ⟨ip.1 / 4, ip.1 % 4⟩ (b.tiles ip.2)) by
            simp [decodeStep, from_char_toChar _ (h ip (List.mem_cons_self ip t))]]
      exact ih (fun iq hq => h iq (List.mem_cons_of_mem ip hq)) _

/-- A fold of `set_value`s leaves positions outside the list unchanged. -/
theorem foldl_set_value_not_mem (f : Position → Value) :
    ∀ (l : List Position) (acc : Board) (p : Position), p ∉ l →
      (l.foldl (fun bb q => bb.set_value q (f q)) acc).tiles p = acc.tiles p
  | [], _, _, _ => rfl
  | q :: t, acc, p, hp => by
      rw [List.foldl_cons,
        foldl_set_value_not_mem f t _ p (fun hm => hp (List.mem_cons_of_mem q hm)),
        Board.tiles_set_value,
        if_neg (fun (he : p = q) => hp (he ▸ List.mem_cons_self q t))]

/-- A fold of `set_value`s over a duplicate-free list realizes the written
function on that list. -/
theorem foldl_set_value_mem (f : Position → Value) :
    ∀ (l : List Position), l.Nodup → ∀ (acc : Board) (p : Position), p ∈ l →
      (l.foldl (fun bb q => bb.set_value q (f q)) acc).tiles p = f p
  | [], _, _, _, hp => absurd hp (List.not_mem_nil _)
  | q :: t, hnd, acc, p, hp => by
      rw [List.foldl_cons]
      rcases List.mem_cons.mp hp with h | h
      · subst h
        rw [foldl_set_value_not_mem f t _ p (List.nodup_cons.mp hnd).1,
          Board.tiles_set_value, if_pos rfl]
      · exact foldl_set_value_mem f t (List.nodup_cons.mp hnd).2 _ p h

/-- Folding a pair list through a function that only reads the second
component equals folding the seconds. -/
theorem foldl_pairs_snd (g : Board → Position → Board) :
    ∀ (l : List (Nat × Position)) (acc : Board),
      l.foldl (fun bb ip => g bb ip.2) acc = (l.map Prod.snd).foldl g acc
  | [], _ => rfl
  | ip :: t, acc => by
      rw [List.foldl_cons, List.map_cons, List.foldl_cons, foldl_pairs_snd g t]

/-- A fold of `set_value`s does not change the board size. -/
theorem foldl_set_value_size (f : Position → Value) (l : List Position) (acc : Board) :
    (l.foldl (fun bb q => bb.set_value q (f q)) acc).size = acc.size := by
  induction l generalizing acc with
  | nil => rfl
  | cons q t ih => rw [List.foldl_cons, ih]; rfl

/-- C7: encoding a 4×4 board of admissible cells to its 16-character text
and decoding it yields a board with identical cell contents, so re-encoding
reproduces the original text exactly. -/
theorem encode_decode_round_trip (b : Board) (h4 : b.size = 4) (hadm : b.Admissible) :
    b.toText.length = 16
    ∧ ∃ b', Board.from_str b.toText = some b'
        ∧ (∀ p ∈ gridPositions 4, b'.tiles p = b.tiles p)
        ∧ b'.toText = b.toText := by
  have hdata : b.toText.data = (gridPositions 4).map (fun p => (b.tiles p).toChar) := by
    rw [toText_data, h4]
  have hlen : b.toText.length = 16 := by
    show b.toText.data.length = 16
    rw [hdata, List.length_map]
    decide
  have hadm4 : ∀ p ∈ gridPositions 4, Value.Admissible (b.tiles p) := by
    intro p hp
    exact hadm p (by rw [h4]; exact hp)
  refine ⟨hlen, ?_⟩
  rw [Board.from_str, if_pos hlen, hdata, List.enum_map]
  rw [List.foldl_map]
  have hfold :
      (gridPositions 4).enum.foldl
          (fun ob ip => decodeStep ob (Prod.map id (fun p => (b.tiles p).toChar) ip))
          (some (Board.new 4))
        = (gridPositions 4).enum.foldl
            (fun ob ip => decodeStep ob (ip.1, (b.tiles ip.2).toChar)) (some (Board.new 4)) := by
    exact foldl_congr_mem _ _ _ _ (fun acc ip _ => rfl)
  rw [hfold, decode_fold_of_admissible b _ (fun ip hip => hadm4 ip.2 (by
    have := List.mem_map_of_mem Prod.snd hip
    rwa [List.enum_map_snd] at this))]
  have hpos : ∀ (acc : Board) (ip : Nat × Position), ip ∈ (gridPositions 4).enum →
      acc.set_value ⟨ip.1 / 4, ip.1 % 4⟩ (b.tiles ip.2) = acc.set_value ip.2 (b.tiles ip.2) := by
    intro acc ip hip
    have : (⟨ip.1 / 4, ip.1 % 4⟩ : Position) = ip.2 := by
      revert hip
      have : ∀ ip ∈ (gridPositions 4).enum, (⟨ip.1 / 4, ip.1 % 4⟩ : Position) = ip.2 := by decide
      exact this ip
    rw [this]
  rw [foldl_congr_mem _ _ _ _ hpos]
  have hsnd :
      (gridPositions 4).enum.foldl (fun bb ip => bb.set_value ip.2 (b.tiles ip.2)) (Board.new 4)
        = (gridPositions 4).foldl (fun bb q => bb.set_value q (b.tiles q)) (Board.new 4) := by
    rw [foldl_pairs_snd (fun bb q => bb.set_value q (b.tiles q)), List.enum_map_snd]
  rw [hsnd]
  have hmem : ∀ p ∈ gridPositions 4,
      ((gridPositions 4).foldl (fun bb q => bb.set_value q (b.tiles q)) (Board.new 4)).tiles p
        = b.tiles p :=
    fun p hp => foldl_set_value_mem _ _ (by decide) _ p hp
  have hsize :
      ((gridPositions 4).foldl (fun bb q => bb.set_value q (b.tiles q)) (Board.new 4)).size
        = 4 := by
    rw [foldl_set_value_size]; rfl
  refine ⟨_, rfl, hmem, ?_⟩
  apply congrArg String.mk
  show List.map _ (gridPositions _) = List.map _ (gridPositions _)
  rw [hsize, h4]
  exact List.map_congr_left (fun p hp => by
    show (Board.get_value _ p).toChar = (b.get_value p).toChar
    rw [Board.get_value, Board.get_value, hmem p hp])

/-- C7 witness: the round trip at the freshly constructed (all-empty) 4×4
board. -/
theorem encode_decode_round_trip_witness :
    (Board.new 4).toText.length = 16
    ∧ ∃ b', Board.from_str (Board.new 4).toText = some b'
        ∧ (∀ p ∈ gridPositions 4, b'.tiles p = (Board.new 4).tiles p)
        ∧ b'.toText = (Board.new 4).toText :=
  encode_decode_round_trip (Board.new 4) rfl (fun _ _ => Or.inl rfl)

/-- Entry `(i, j)` of a generated line traversal: row `i` (or column `i`
when transposed), column `j` (reversed when mirrored). -/
theorem generate_line_traversal_getD (n : Nat) (t m : Bool) (i j : Nat)
    (hi : i < n) (hj : j < n) :
    ((Position.generate_line_traversal n t m).getD i []).getD j ⟨0, 0⟩
      = if t then Position.mk (if m then n - 1 - j else j) i
        else Position.mk i (if m then n - 1 - j else j) := by
  have hline : (Position.generate_line_traversal n t m).getD i []
      = ((if m then (List.range n).reverse else List.range n).map
          (fun col => if t then Position.mk col i else Position.mk i col)) := by
    simp only [Position.generate_line_traversal]
    rw [List.getD_eq_getElem _ _ (by simpa using hi)]
    simp [List.getElem_map, List.getElem_range]
  rw [hline]
  cases m
  · simp only [if_false, Bool.false_eq_true]
    rw [List.getD_eq_getElem _ _ (by simpa using hj)]
    simp [List.getElem_map, List.getElem_range]
  · simp only [if_true]
    rw [List.getD_eq_getElem _ _ (by simpa using hj)]
    simp [List.getElem_map, List.getElem_reverse, List.getElem_range]

/-- Every line of a generated line traversal has `n` entries. -/
theorem generate_line_traversal_line_length (n : Nat) (t m : Bool) :
    ∀ line ∈ Position.generate_line_traversal n t m, line.length = n := by
  intro line hline
  simp only [Position.generate_line_traversal, List.mem_map] at hline
  obtain ⟨row, _, rfl⟩ := hline
  cases m <;> simp

/-- There are `n` lines in a generated line traversal. -/
theorem generate_line_traversal_length (n : Nat) (t m : Bool) :
    (Position.generate_line_traversal n t m).length = n := by
  simp [Position.generate_line_traversal]

/-- Membership in the flattened line traversal is exactly on-grid-ness. -/
theorem generate_line_traversal_mem (n : Nat) (t m : Bool) (p : Position) :
    p ∈ (Position.generate_line_traversal n t m).flatten ↔ p.row < n ∧ p.col < n := by
  simp only [Position.generate_line_traversal, List.mem_flatten, List.mem_map]
  constructor
  · rintro ⟨line, ⟨row, hrow, rfl⟩, hp⟩
    simp only [List.mem_map] at hp
    obtain ⟨col, hcol, rfl⟩ := hp
    have hcol' : col < n := by
      cases m <;> simp_all [List.mem_reverse, List.mem_range]
    have hrow' : row < n := List.mem_range.mp hrow
    cases t <;> simp <;> omega
  · rintro ⟨h1, h2⟩
    cases t
    · refine ⟨_, ⟨p.row, List.mem_range.mpr h1, rfl⟩, ?_⟩
      simp only [List.mem_map]
      refine ⟨p.col, ?_, by simp⟩
      cases m <;> simp [List.mem_reverse, List.mem_range, h2]
    · refine ⟨_, ⟨p.col, List.mem_range.mpr h2, rfl⟩, ?_⟩
      simp only [List.mem_map]
      refine ⟨p.row, ?_, by simp⟩
      cases m <;> simp [List.mem_reverse, List.mem_range, h1]

/-- The flattened line traversal never repeats a position. -/
theorem generate_line_traversal_nodup (n : Nat) (t m : Bool) :
    ((Position.generate_line_traversal n t m).flatten).Nodup := by
  apply List.nodup_flatten.mpr
  constructor
  · intro line hline
    simp only [Position.generate_line_traversal, List.mem_map] at hline
    obtain ⟨row, _, rfl⟩ := hline
    apply List.Nodup.map
    · intro a b hab
      cases t <;> simpa [Position.mk.injEq] using hab
    · cases m <;> simp [List.nodup_range]
  · simp only [Position.generate_line_traversal]
    apply (List.pairwise_map).mpr
    apply List.Pairwise.imp_of_mem ?_ (List.pairwise_lt_range n)
    intro r1 r2 _ _ hlt
    intro p hp1 hp2
    simp only [List.mem_map] at hp1 hp2
    obtain ⟨c1, _, h1⟩ := hp1
    obtain ⟨c2, _, h2⟩ := hp2
    cases t <;> simp only [if_true, if_false, Bool.false_eq_true] at h1 h2 <;>
      rw [← h2] at h1 <;> simp [Position.mk.injEq] at h1 <;> omega

/-- C3: for every grid size and direction, the traversal map consists of
`n` lines of `n` positions whose union is exactly the grid with no
repetition, and line `i`, slot `j` holds exactly the position the claim
describes (Left: natural/natural; Right: columns mirrored; Up: transposed;
Down: transposed and mirrored). -/
theorem traversal_map_partitions (n : Nat) (_hn : 1 ≤ n) (d : Direction) :
    (Position.generate_traversal_map n d).length = n
    ∧ (∀ line ∈ Position.generate_traversal_map n d, line.length = n)
    ∧ ((Position.generate_traversal_map n d).flatten).Nodup
    ∧ (∀ p : Position,
        p ∈ (Position.generate_traversal_map n d).flatten ↔ p.row < n ∧ p.col < n)
    ∧ (∀ i j, i < n → j < n →
        ((Position.generate_traversal_map n d).getD i []).getD j ⟨0, 0⟩
          = traversalSpecPos d n i j) := by
  cases d
  case Left =>
    exact ⟨generate_line_traversal_length n false false,
      generate_line_traversal_line_length n false false,
      generate_line_traversal_nodup n false false,
      generate_line_traversal_mem n false false,
      fun i j hi hj => by
        rw [show Position.generate_traversal_map n Direction.Left
            = Position.generate_line_traversal n false false from rfl,
          generate_line_traversal_getD n false false i j hi hj]
        simp [traversalSpecPos]⟩
  case Right =>
    exact ⟨generate_line_traversal_length n false true,
      generate_line_traversal_line_length n false true,
      generate_line_traversal_nodup n false true,
      generate_line_traversal_mem n false true,
      fun i j hi hj => by
        rw [show Position.generate_traversal_map n Direction.Right
            = Position.generate_line_traversal n false true from rfl,
          generate_line_traversal_getD n false true i j hi hj]
        simp [traversalSpecPos]⟩
  case Up =>
    exact ⟨generate_line_traversal_length n true false,
      generate_line_traversal_line_length n true false,
      generate_line_traversal_nodup n true false,
      generate_line_traversal_mem n true false,
      fun i j hi hj => by
        rw [show Position.generate_traversal_map n Direction.Up
            = Position.generate_line_traversal n true false from rfl,
          generate_line_traversal_getD n true false i j hi hj]
        simp [traversalSpecPos]⟩
  case Down =>
    exact ⟨generate_line_traversal_length n true true,
      generate_line_traversal_line_length n true true,
      generate_line_traversal_nodup n true true,
      generate_line_traversal_mem n true true,
      fun i j hi hj => by
        rw [show Position.generate_traversal_map n Direction.Down
            = Position.generate_line_traversal n true true from rfl,
          generate_line_traversal_getD n true true i j hi hj]
        simp [traversalSpecPos]⟩

/-- C3 witness: the size-4 traversal maps, for the Right direction. -/
theorem traversal_map_partitions_witness :
    (Position.generate_traversal_map 4 Direction.Right).length = 4
    ∧ (∀ line ∈ Position.generate_traversal_map 4 Direction.Right, line.length = 4)
    ∧ ((Position.generate_traversal_map 4 Direction.Right).flatten).Nodup
    ∧ (∀ p : Position,
        p ∈ (Position.generate_traversal_map 4 Direction.Right).flatten
          ↔ p.row < 4 ∧ p.col < 4)
    ∧ (∀ i j, i < 4 → j < 4 →
        ((Position.generate_traversal_map 4 Direction.Right).getD i []).getD j ⟨0, 0⟩
          = traversalSpecPos Direction.Right 4 i j) :=
  traversal_map_partitions 4 (by decide) Direction.Right

/-- C5: the spawn planner returns no action exactly when no grid cell is
`Empty`; otherwise it returns a `SpawnRandomTile` whose position is the
`gen_range`-drawn index into the Empty positions (enumerated in Left
traversal), currently holding `Empty`, and whose value is 2 on a `true`
draw of `gen_bool` (called with probability 0.9 in the source) and 4
otherwise — all a deterministic function of the supplied generator state. -/
theorem plan_spawn_characterization {σ : Type} (g : RandGen σ) (b : Board) (s : σ)
    (hrange : ∀ n st, 0 < n → (g.gen_range n st).1 < n) :
    ((b.plan_spawn_random_tile g s).1 = none ↔ b.emptyPositions = [])
    ∧ (b.emptyPositions = [] ↔ ∀ p ∈ gridPositions b.size, b.tiles p ≠ Value.Empty)
    ∧ (b.emptyPositions ≠ [] →
        (b.plan_spawn_random_tile g s).1
          = some (Action.SpawnRandomTile
              { value := Value.Number
                  (if (g.gen_bool (g.gen_range b.emptyPositions.length s).2).1 then 2 else 4)
                position :=
                  b.emptyPositions.getD (g.gen_range b.emptyPositions.length s).1 ⟨0, 0⟩ })
        ∧ b.tiles (b.emptyPositions.getD (g.gen_range b.emptyPositions.length s).1 ⟨0, 0⟩)
            = Value.Empty) := by
  refine ⟨?_, ?_, ?_⟩
  · constructor
    · intro hnone
      by_contra hne
      have hfalse : b.emptyPositions.isEmpty = false := by
        rw [Bool.eq_false_iff]
        intro h
        exact hne (List.isEmpty_iff.mp h)
      rw [Board.plan_spawn_random_tile] at hnone
      simp [hfalse] at hnone
    · intro hnil
      rw [Board.plan_spawn_random_tile]
      have h : b.emptyPositions.isEmpty = true := List.isEmpty_iff.mpr hnil
      simp [h]
  · rw [Board.emptyPositions, List.filter_eq_nil_iff]
    constructor
    · intro h p hp
      have := h p hp
      simpa [Board.get_value] using this
    · intro h p hp
      simpa [Board.get_value] using h p hp
  · intro hne
    have hfalse : b.emptyPositions.isEmpty = false := by
      rw [Bool.eq_false_iff]
      intro h
      exact hne (List.isEmpty_iff.mp h)
    have hlt : (g.gen_range b.emptyPositions.length s).1 < b.emptyPositions.length :=
      hrange _ s (List.length_pos.mpr hne)
    constructor
    · rw [Board.plan_spawn_random_tile]
      simp only [hfalse, if_pos trivial]
    · have hmem : b.emptyPositions.getD (g.gen_range b.emptyPositions.length s).1 ⟨0, 0⟩
          ∈ b.emptyPositions := by
        rw [List.getD_eq_getElem _ _ hlt]
        exact List.getElem_mem hlt
      have := List.mem_filter.mp hmem
      simpa [Board.get_value] using this.2

/-- C5 witness: the spawn planner on the all-empty 4×4 board with the
trivial deterministic generator. -/
theorem plan_spawn_characterization_witness :
    (((Board.new 4).plan_spawn_random_tile unitRandGen ()).1 = none
        ↔ (Board.new 4).emptyPositions = [])
    ∧ ((Board.new 4).emptyPositions = []
        ↔ ∀ p ∈ gridPositions (Board.new 4).size, (Board.new 4).tiles p ≠ Value.Empty)
    ∧ ((Board.new 4).emptyPositions ≠ [] →
        ((Board.new 4).plan_spawn_random_tile unitRandGen ()).1
          = some (Action.SpawnRandomTile
              { value := Value.Number
                  (if (unitRandGen.gen_bool
                        (unitRandGen.gen_range (Board.new 4).emptyPositions.length ()).2).1
                    then 2 else 4)
                position :=
                  (Board.new 4).emptyPositions.getD
                    (unitRandGen.gen_range (Board.new 4).emptyPositions.length ()).1 ⟨0, 0⟩ })
        ∧ (Board.new 4).tiles
              ((Board.new 4).emptyPositions.getD
                (unitRandGen.gen_range (Board.new 4).emptyPositions.length ()).1 ⟨0, 0⟩)
            = Value.Empty) :=
  plan_spawn_characterization unitRandGen (Board.new 4) () (fun _ _ h => h)

/-- Unfolding equation of `mergePairs` on two-or-more element lists. -/
theorem mergePairs_cons2 (a c : Nat) (rest : List Nat) :
    mergePairs (a :: c :: rest)
      = if a = c ∧ a < 2048 then (2 * a) :: mergePairs rest
        else a :: mergePairs (c :: rest) := by
  rw [mergePairs]

/-- `stepSpec` ignores empty cells. -/
theorem stepSpec_empty (acc : List Nat × Option Nat) : stepSpec acc Value.Empty = acc := by
  rcases acc with ⟨done, pend⟩
  cases pend <;> rfl

/-- `stepSpec` on a number with no pending value. -/
theorem stepSpec_number_none (done : List Nat) (v : Nat) :
    stepSpec (done, none) (Value.Number v) = (done, some v) := rfl

/-- `stepSpec` on a mergeable pair. -/
theorem stepSpec_number_merge (done : List Nat) (p v : Nat) (h : p = v ∧ p < MAX_TILE_VALUE) :
    stepSpec (done, some p) (Value.Number v) = (done ++ [2 * p], none) := by
  obtain ⟨h1, h2⟩ := h
  subst h1
  simp [stepSpec, h2]

/-- `stepSpec` on a non-mergeable pair. -/
theorem stepSpec_number_nomerge (done : List Nat) (p v : Nat)
    (h : ¬(p = v ∧ p < MAX_TILE_VALUE)) :
    stepSpec (done, some p) (Value.Number v) = (done ++ [p], some v) := by
  by_cases h1 : p = v
  · subst h1
    have h2 : ¬p < MAX_TILE_VALUE := fun hl => h ⟨rfl, hl⟩
    simp [stepSpec, h2]
  · simp [stepSpec, h1]

/-- The incremental fold computes exactly the compact-and-merge-pairs
result (with the accumulated output prepended). -/
theorem finalize_foldl_stepSpec (vs : List Value) :
    ∀ (done : List Nat) (pend : Option Nat),
      (vs.foldl stepSpec (done, pend)).1 ++ optList (vs.foldl stepSpec (done, pend)).2
        = done ++ mergePairs (optList pend ++ compactLine vs) := by
  induction vs with
  | nil =>
      intro done pend
      cases pend <;> simp [optList, compactLine, mergePairs]
  | cons v t ih =>
      intro done pend
      cases v with
      | Empty =>
          rw [List.foldl_cons, stepSpec_empty,
            ih done pend, show compactLine (Value.Empty :: t) = compactLine t from rfl]
      | Number v =>
          have hc : compactLine (Value.Number v :: t) = v :: compactLine t := rfl
          cases pend with
          | none =>
              rw [List.foldl_cons, stepSpec_number_none, ih done (some v), hc]
              rfl
          | some p =>
              by_cases hm : p = v ∧ p < MAX_TILE_VALUE
              · rw [List.foldl_cons, stepSpec_number_merge done p v hm,
                  ih (done ++ [2 * p]) none, hc,
                  show optList (some p) ++ v :: compactLine t = p :: v :: compactLine t from rfl,
                  mergePairs_cons2,
                  if_pos (show p = v ∧ p < 2048 from hm)]
                simp [optList]
              · rw [List.foldl_cons, stepSpec_number_nomerge done p v hm,
                  ih (done ++ [p]) (some v), hc,
                  show optList (some p) ++ v :: compactLine t = p :: v :: compactLine t from rfl,
                  mergePairs_cons2,
                  if_neg (show ¬(p = v ∧ p < 2048) from hm)]
                simp [optList]

/-- The fold never places more values than it reads cells. -/
theorem foldl_stepSpec_placed (vs : List Value) :
    ∀ acc : List Nat × Option Nat,
      (vs.foldl stepSpec acc).1.length + pendCount (vs.foldl stepSpec acc).2
        ≤ acc.1.length + pendCount acc.2 + vs.length := by
  induction vs with
  | nil => intro acc; simp
  | cons v t ih =>
      intro acc
      rw [List.foldl_cons]
      have h := ih (stepSpec acc v)
      have hstep : (stepSpec acc v).1.length + pendCount (stepSpec acc v).2
          ≤ acc.1.length + pendCount acc.2 + 1 := by
        rcases acc with ⟨done, pend⟩
        cases v with
        | Empty => simp [stepSpec_empty]
        | Number v =>
            cases pend with
            | none => simp [stepSpec_number_none, pendCount]
            | some p =>
                by_cases hm : p = v ∧ p < MAX_TILE_VALUE
                · simp [stepSpec_number_merge done p v hm, pendCount]
                · simp [stepSpec_number_nomerge done p v hm, pendCount]
      calc (t.foldl stepSpec (stepSpec acc v)).1.length
              + pendCount (t.foldl stepSpec (stepSpec acc v)).2
      _ ≤ (stepSpec acc v).1.length + pendCount (stepSpec acc v).2 + t.length := h
      _ ≤ acc.1.length + pendCount acc.2 + 1 + t.length := by omega
      _ = acc.1.length + pendCount acc.2 + (v :: t).length := by simp; omega

/-- The number of placed values after `k` scanned cells is at most `k`. -/
theorem spec_placed_le (b : Board) (lt : List Position) (k : Nat) (hk : k ≤ lt.length) :
    (specDone b lt k).length + pendCount (specPend b lt k) ≤ k := by
  have h := foldl_stepSpec_placed ((lt.take k).map b.tiles) ([], none)
  simp only [specDone, specPend] at *
  simpa [List.length_take, Nat.min_eq_left hk, pendCount] using h

/-- Scanning one more cell advances the incremental fold by one step. -/
theorem spec_succ (b : Board) (lt : List Position) (k : Nat) (hk : k < lt.length) :
    (specDone b lt (k + 1), specPend b lt (k + 1))
      = stepSpec (specDone b lt k, specPend b lt k) (b.tiles (pAt lt k)) := by
  have htake : lt.take (k + 1) = lt.take k ++ [lt[k]] := by
    rw [List.take_succ, List.getElem?_eq_getElem hk]
    rfl
  have hp : pAt lt k = lt[k] := List.getD_eq_getElem lt ⟨0, 0⟩ hk
  rw [specDone, specPend, htake, List.map_append, List.foldl_append, hp]
  rfl

/-- `specDone` and `specPend` start empty. -/
theorem spec_zero (b : Board) (lt : List Position) :
    specDone b lt 0 = [] ∧ specPend b lt 0 = none := ⟨rfl, rfl⟩

/-- A valid index yields a line member. -/
theorem pAt_mem (lt : List Position) (k : Nat) (h : k < lt.length) : pAt lt k ∈ lt := by
  rw [pAt, List.getD_eq_getElem _ _ h]
  exact List.getElem_mem h

/-- On a duplicate-free line, `pAt` is injective on valid indices. -/
theorem pAt_inj (lt : List Position) (hnd : lt.Nodup) {i j : Nat}
    (hi : i < lt.length) (hj : j < lt.length) (h : pAt lt i = pAt lt j) : i = j := by
  rw [pAt, pAt, List.getD_eq_getElem _ _ hi, List.getD_eq_getElem _ _ hj] at h
  exact (List.Nodup.getElem_inj_iff hnd).mp h

/-- `lineStep` skips empty cells. -/
theorem lineStep_eq_empty (lt : List Position) (st : LineState) (cur : Position)
    (h : st.board.tiles cur = Value.Empty) : lineStep lt st cur = st := by
  unfold lineStep
  rw [h]

/-- `lineStep` on a merge with a live deferred slide: the deferred slide's
destination becomes the merge target and the deferred slide is dropped. -/
theorem lineStep_eq_merge_def (lt : List Position) (st : LineState) (cur : Position)
    (v pi pv : Nat) (t : Tile) (p : Position)
    (hv : st.board.tiles cur = Value.Number v)
    (hprev : st.prev = some (pi, pv))
    (hcond : pv = v ∧ pv < MAX_TILE_VALUE)
    (hdef : st.deferred = some (t, p)) :
    lineStep lt st cur =
      { events := st.events ++ [Action.MergeTiles t (st.board.get_tile cur) p
          (t.value.merge (st.board.get_tile cur).value)]
        board := st.board.apply (Action.MergeTiles t (st.board.get_tile cur) p
          (t.value.merge (st.board.get_tile cur).value))
        focus_idx := st.focus_idx
        prev := none
        deferred_slide := none
        deferred := none } := by
  obtain ⟨he, hlt⟩ := hcond
  subst he
  unfold lineStep
  rw [hv, hprev, hdef]
  dsimp only
  rw [if_pos (show pv = pv ∧ pv < MAX_TILE_VALUE from ⟨rfl, hlt⟩)]

/-- `lineStep` on a merge with no deferred slide: the merge consumes the
tile sitting at the previous slot. -/
theorem lineStep_eq_merge_nodef (lt : List Position) (st : LineState) (cur : Position)
    (v pi pv : Nat)
    (hv : st.board.tiles cur = Value.Number v)
    (hprev : st.prev = some (pi, pv))
    (hcond : pv = v ∧ pv < MAX_TILE_VALUE)
    (hdef : st.deferred = none) :
    lineStep lt st cur =
      { events := st.events ++ [Action.MergeTiles (st.board.get_tile (lt.getD pi ⟨0, 0⟩))
          (st.board.get_tile cur) (lt.getD pi ⟨0, 0⟩)
          ((st.board.get_tile (lt.getD pi ⟨0, 0⟩)).value.merge (st.board.get_tile cur).value)]
        board := st.board.apply (Action.MergeTiles (st.board.get_tile (lt.getD pi ⟨0, 0⟩))
          (st.board.get_tile cur) (lt.getD pi ⟨0, 0⟩)
          ((st.board.get_tile (lt.getD pi ⟨0, 0⟩)).value.merge (st.board.get_tile cur).value))
        focus_idx := st.focus_idx
        prev := none
        deferred_slide := st.deferred_slide
        deferred := none } := by
  obtain ⟨he, hlt⟩ := hcond
  subst he
  unfold lineStep
  rw [hv, hprev, hdef]
  dsimp only
  rw [if_pos (show pv = pv ∧ pv < MAX_TILE_VALUE from ⟨rfl, hlt⟩)]

/-- `lineStep` on a non-merging tile already sitting at the focus slot. -/
theorem lineStep_eq_stay (lt : List Position) (st : LineState) (cur : Position)
    (v pi pv : Nat)
    (hv : st.board.tiles cur = Value.Number v)
    (hprev : st.prev = some (pi, pv))
    (hcond : ¬(pv = v ∧ pv < MAX_TILE_VALUE))
    (hstay : cur = lt.getD st.focus_idx ⟨0, 0⟩) :
    lineStep lt st cur =
      { st with prev := some (st.focus_idx, v), focus_idx := st.focus_idx + 1 } := by
  unfold lineStep
  rw [hv, hprev]
  dsimp only
  rw [if_neg hcond, if_neg (show ¬cur ≠ lt.getD st.focus_idx ⟨0, 0⟩ from
    fun hne => hne hstay)]

/-- `lineStep` on a non-merging sliding tile with no deferred slide:
register a new deferred slide toward the focus slot. -/
theorem lineStep_eq_slide_nodef (lt : List Position) (st : LineState) (cur : Position)
    (v pi pv : Nat)
    (hv : st.board.tiles cur = Value.Number v)
    (hprev : st.prev = some (pi, pv))
    (hcond : ¬(pv = v ∧ pv < MAX_TILE_VALUE))
    (hmove : cur ≠ lt.getD st.focus_idx ⟨0, 0⟩)
    (hdef : st.deferred = none) :
    lineStep lt st cur =
      { st with
        deferred := some (st.board.get_tile cur, lt.getD st.focus_idx ⟨0, 0⟩)
        deferred_slide := some (Action.SlideTile (st.board.get_tile cur)
          (lt.getD st.focus_idx ⟨0, 0⟩))
        prev := some (st.focus_idx, v)
        focus_idx := st.focus_idx + 1 } := by
  unfold lineStep
  rw [hv, hprev, hdef]
  dsimp only
  rw [if_neg hcond, if_pos hmove]

/-- `lineStep` on a non-merging sliding tile with a live deferred slide:
flush the deferred slide (emit and apply it), then register a new deferred
slide for the current tile. -/
theorem lineStep_eq_slide_def (lt : List Position) (st : LineState) (cur : Position)
    (v pi pv : Nat) (t : Tile) (p : Position)
    (hv : st.board.tiles cur = Value.Number v)
    (hprev : st.prev = some (pi, pv))
    (hcond : ¬(pv = v ∧ pv < MAX_TILE_VALUE))
    (hmove : cur ≠ lt.getD st.focus_idx ⟨0, 0⟩)
    (hdef : st.deferred = some (t, p)) :
    lineStep lt st cur =
      { events := st.events ++ [Action.SlideTile t p]
        board := st.board.apply (Action.SlideTile t p)
        focus_idx := st.focus_idx + 1
        prev := some (st.focus_idx, v)
        deferred_slide := some (Action.SlideTile
          ((st.board.apply (Action.SlideTile t p)).get_tile cur) (lt.getD st.focus_idx ⟨0, 0⟩))
        deferred := some ((st.board.apply (Action.SlideTile t p)).get_tile cur,
          lt.getD st.focus_idx ⟨0, 0⟩) } := by
  unfold lineStep
  rw [hv, hprev, hdef]
  dsimp only
  rw [if_neg hcond, if_pos hmove]

/-- `lineStep` on the first tile of a line, already at the focus slot. -/
theorem lineStep_eq_first_stay (lt : List Position) (st : LineState) (cur : Position)
    (v : Nat)
    (hv : st.board.tiles cur = Value.Number v)
    (hprev : st.prev = none)
    (hstay : cur = lt.getD st.focus_idx ⟨0, 0⟩) :
    lineStep lt st cur =
      { st with prev := some (st.focus_idx, v), focus_idx := st.focus_idx + 1 } := by
  unfold lineStep
  rw [hv, hprev]
  dsimp only
  rw [if_neg (show ¬cur ≠ lt.getD st.focus_idx ⟨0, 0⟩ from fun hne => hne hstay)]

/-- `lineStep` on the first tile of a line, sliding toward the focus slot. -/
theorem lineStep_eq_first_slide (lt : List Position) (st : LineState) (cur : Position)
    (v : Nat)
    (hv : st.board.tiles cur = Value.Number v)
    (hprev : st.prev = none)
    (hmove : cur ≠ lt.getD st.focus_idx ⟨0, 0⟩) :
    lineStep lt st cur =
      { st with
        deferred := some (st.board.get_tile cur, lt.getD st.focus_idx ⟨0, 0⟩)
        deferred_slide := some (Action.SlideTile (st.board.get_tile cur)
          (lt.getD st.focus_idx ⟨0, 0⟩))
        prev := some (st.focus_idx, v)
        focus_idx := st.focus_idx + 1 } := by
  unfold lineStep
  rw [hv, hprev]
  dsimp only
  rw [if_pos hmove]

/-- Cell reads after applying a spawn. -/
theorem tiles_apply_spawn (b : Board) (t : Tile) (q : Position) :
    (b.apply (Action.SpawnRandomTile t)).tiles q
      = if q = t.position then t.value else b.tiles q := rfl

/-- Cell reads after applying a slide. -/
theorem tiles_apply_slide (b : Board) (t : Tile) (dest q : Position) :
    (b.apply (Action.SlideTile t dest)).tiles q
      = if q = dest then t.value
        else if q = t.position then Value.Empty else b.tiles q := rfl

/-- Cell reads after applying a merge. -/
theorem tiles_apply_merge (b : Board) (t1 t2 : Tile) (dest : Position) (v : Value)
    (q : Position) :
    (b.apply (Action.MergeTiles t1 t2 dest v)).tiles q
      = if q = dest then v
        else if q = t2.position then Value.Empty
        else if q = t1.position then Value.Empty else b.tiles q := rfl

/-- `apply` does not change the board size. -/
theorem size_apply (b : Board) (e : Action) : (b.apply e).size = b.size := by
  cases e <;> rfl

/-- Applying a concatenation applies the parts in order. -/
theorem applyEvents_append (es1 es2 : List Action) (b : Board) :
    applyEvents (es1 ++ es2) b = applyEvents es2 (applyEvents es1 b) := by
  simp [applyEvents, List.foldl_append]

/-- An action leaves untouched cells unchanged. -/
theorem tiles_apply_untouched (b : Board) (e : Action) (q : Position)
    (h : q ∉ e.touchedPositions) : (b.apply e).tiles q = b.tiles q := by
  cases e with
  | SpawnRandomTile t =>
      rw [tiles_apply_spawn, if_neg (fun he => h (by
        simp [Action.touchedPositions, Action.srcPositions, Action.destPos, he]))]
  | SlideTile t dest =>
      rw [tiles_apply_slide,
        if_neg (fun he => h (by
          simp [Action.touchedPositions, Action.srcPositions, Action.destPos, he])),
        if_neg (fun he => h (by
          simp [Action.touchedPositions, Action.srcPositions, Action.destPos, he]))]
  | MergeTiles t1 t2 dest v =>
      rw [tiles_apply_merge,
        if_neg (fun he => h (by
          simp [Action.touchedPositions, Action.srcPositions, Action.destPos, he])),
        if_neg (fun he => h (by
          simp [Action.touchedPositions, Action.srcPositions, Action.destPos, he])),
        if_neg (fun he => h (by
          simp [Action.touchedPositions, Action.srcPositions, Action.destPos, he]))]

/-- A sequence of actions leaves untouched cells unchanged. -/
theorem applyEvents_untouched (es : List Action) (b : Board) (q : Position)
    (h : ∀ e ∈ es, q ∉ e.touchedPositions) : (applyEvents es b).tiles q = b.tiles q := by
  induction es generalizing b with
  | nil => rfl
  | cons e t ih =>
      rw [show applyEvents (e :: t) b = applyEvents t (b.apply e) from rfl,
        ih _ (fun e' he' => h e' (List.mem_cons_of_mem e he')),
        tiles_apply_untouched b e q (h e (List.mem_cons_self e t))]

/-- The value an action writes at a cell does not depend on the rest of
the board. -/
theorem apply_tiles_congr (b1 b2 : Board) (e : Action) (q : Position)
    (h : b1.tiles q = b2.tiles q) : (b1.apply e).tiles q = (b2.apply e).tiles q := by
  cases e with
  | SpawnRandomTile t =>
      rw [tiles_apply_spawn, tiles_apply_spawn]
      split_ifs <;> simp [h]
  | SlideTile t dest =>
      rw [tiles_apply_slide, tiles_apply_slide]
      split_ifs <;> simp [h]
  | MergeTiles t1 t2 dest v =>
      rw [tiles_apply_merge, tiles_apply_merge]
      split_ifs <;> simp [h]

/-- The value a sequence of actions leaves at a cell depends only on the
cell's prior value. -/
theorem applyEvents_tiles_congr (es : List Action) (b1 b2 : Board) (q : Position)
    (h : b1.tiles q = b2.tiles q) :
    (applyEvents es b1).tiles q = (applyEvents es b2).tiles q := by
  induction es generalizing b1 b2 with
  | nil => exact h
  | cons e t ih =>
      rw [show applyEvents (e :: t) b1 = applyEvents t (b1.apply e) from rfl,
        show applyEvents (e :: t) b2 = applyEvents t (b2.apply e) from rfl]
      exact ih _ _ (apply_tiles_congr b1 b2 e q h)

/-- `cloneVal` below the finished region. -/
theorem cloneVal_lt (done : List Nat) (pend dm : Option Nat) (j : Nat)
    (h : j < done.length) : cloneVal done pend dm j = Value.Number (done.getD j 0) := by
  rw [cloneVal.eq_def, if_pos h]

/-- `cloneVal` beyond the finished region with no pending value. -/
theorem cloneVal_ge_none (done : List Nat) (dm : Option Nat) (j : Nat)
    (h : done.length ≤ j) : cloneVal done none dm j = Value.Empty := by
  rw [cloneVal.eq_def, if_neg (by omega)]

/-- `cloneVal` beyond the finished region, pending value applied, off the
pending slot. -/
theorem cloneVal_ge_some_none (done : List Nat) (x : Nat) (j : Nat)
    (h : done.length ≤ j) (hne : j ≠ done.length) :
    cloneVal done (some x) none j = Value.Empty := by
  rw [cloneVal.eq_def, if_neg (by omega)]
  exact if_neg hne

/-- `cloneVal` beyond the finished region, pending value deferred, off the
deferred tile's cell. -/
theorem cloneVal_ge_some_some (done : List Nat) (x m j : Nat)
    (h : done.length ≤ j) (hne : j ≠ m) :
    cloneVal done (some x) (some m) j = Value.Empty := by
  rw [cloneVal.eq_def, if_neg (by omega)]
  exact if_neg hne

/-- `cloneVal` at the slot of an applied pending value. -/
theorem cloneVal_slot_none (done : List Nat) (x : Nat) :
    cloneVal done (some x) none done.length = Value.Number x := by
  rw [cloneVal.eq_def, if_neg (by omega)]
  exact if_pos rfl

/-- `cloneVal` at the cell where a deferred tile still sits. -/
theorem cloneVal_dm_self (done : List Nat) (x m : Nat) (h : done.length ≤ m) :
    cloneVal done (some x) (some m) m = Value.Number x := by
  rw [cloneVal.eq_def, if_neg (by omega)]
  exact if_pos rfl

/-- The loop invariant holds before any cell is scanned. -/
theorem lineInv_zero (b : Board) (lt : List Position) :
    LineInv b lt 0 none ⟨[], b, 0, none, none, none⟩ :=
  { hk := Nat.zero_le _
    size_eq := rfl
    focus := rfl
    prev := rfl
    pendSrc := fun x h => by cases h
    defNone := fun _ => rfl
    defSome := fun m h => by cases h
    boardLine := fun j hj => absurd hj (Nat.not_lt_zero j)
    boardRest := fun _ _ _ => rfl
    boardOff := fun _ _ => rfl
    replay := rfl
    stable := Iff.intro (fun _ j hj => absurd hj (Nat.not_lt_zero j)) (fun _ => ⟨rfl, rfl⟩)
    evDest := fun e he => absurd he (List.not_mem_nil e)
    evSrc := fun e he => absurd he (List.not_mem_nil e)
    destNodup := List.nodup_nil
    srcNodup := List.nodup_nil
    prevFreeDest := fun _ _ h => by cases h
    prevFreeSrc := fun _ _ h => by cases h
    defFreeSrc := fun _ h => by cases h
    mergeLater := List.Pairwise.nil
    mergeDestLow := fun e he => absurd he (List.not_mem_nil e)
    evValues := fun e he => absurd he (List.not_mem_nil e) }

/-- Distinct valid indices of a duplicate-free line give distinct cells. -/
theorem pAt_ne (lt : List Position) (hnd : lt.Nodup) {i j : Nat}
    (hi : i < lt.length) (hj : j < lt.length) (hij : i ≠ j) : pAt lt i ≠ pAt lt j :=
  fun he => hij (pAt_inj lt hnd hi hj he)

/-- Invariant preservation: scanning an empty cell. -/
theorem lineInv_step_empty (b : Board) (lt : List Position) (k : Nat)
    (hk : k < lt.length) (st : LineState) (dm : Option Nat)
    (inv : LineInv b lt k dm st)
    (hbv : b.tiles (pAt lt k) = Value.Empty) :
    LineInv b lt (k + 1) dm (lineStep lt st (pAt lt k)) := by
  have hsp := spec_succ b lt k hk
  rw [hbv, stepSpec_empty] at hsp
  have hD : specDone b lt (k + 1) = specDone b lt k := congrArg Prod.fst hsp
  have hP : specPend b lt (k + 1) = specPend b lt k := congrArg Prod.snd hsp
  have hplaced := spec_placed_le b lt k (le_of_lt hk)
  have hcloneE : ∀ dm0 : Option Nat, (∀ m, dm0 = some m → m ≠ k) →
      cloneVal (specDone b lt k) (specPend b lt k) dm0 k = Value.Empty := by
    intro dm0 hdm0
    cases hpend : specPend b lt k with
    | none => exact cloneVal_ge_none _ _ _ (by rw [hpend] at hplaced; simpa [pendCount] using hplaced)
    | some x =>
        rw [hpend] at hplaced
        simp only [pendCount] at hplaced
        cases dm0 with
        | none => exact cloneVal_ge_some_none _ _ _ (by omega) (by omega)
        | some m => exact cloneVal_ge_some_some _ _ _ _ (by omega) (Ne.symm (hdm0 m rfl))
  have hstep : lineStep lt st (pAt lt k) = st :=
    lineStep_eq_empty lt st _ (by rw [inv.boardRest k le_rfl hk, hbv])
  rw [hstep]
  exact
    { hk := hk
      size_eq := inv.size_eq
      focus := by rw [hD, hP]; exact inv.focus
      prev := by rw [hD, hP]; exact inv.prev
      pendSrc := by
        intro x hx
        rw [hP] at hx
        obtain ⟨j, hj, hval⟩ := inv.pendSrc x hx
        exact ⟨j, Nat.lt_succ_of_lt hj, hval⟩
      defNone := inv.defNone
      defSome := by
        intro m hm
        obtain ⟨x, hx, h1, h2, h3, h4⟩ := inv.defSome m hm
        rw [hD, hP]
        exact ⟨x, hx, h1, Nat.lt_succ_of_lt h2, h3, h4⟩
      boardLine := by
        intro j hj
        rw [hD, hP]
        rcases Nat.lt_succ_iff_lt_or_eq.mp hj with h | h
        · exact inv.boardLine j h
        · subst h
          rw [inv.boardRest j le_rfl hk, hbv]
          refine (hcloneE dm ?_).symm
          intro m hm
          obtain ⟨x, hx, h1, h2, h3, h4⟩ := inv.defSome m hm
          exact Nat.ne_of_lt h2
      boardRest := fun j hj1 hj2 => inv.boardRest j (Nat.le_of_succ_le hj1) hj2
      boardOff := inv.boardOff
      replay := inv.replay
      stable := by
        rw [hD, hP]
        constructor
        · intro h j hj
          rcases Nat.lt_succ_iff_lt_or_eq.mp hj with h' | h'
          · exact inv.stable.mp h j h'
          · subst h'
            rw [hbv]
            exact (hcloneE none (fun m hm => by cases hm)).symm
        · intro h
          exact inv.stable.mpr (fun j hj => h j (Nat.lt_succ_of_lt hj))
      evDest := inv.evDest
      evSrc := by
        intro e he p hp
        obtain ⟨j, hj, hpe⟩ := inv.evSrc e he p hp
        exact ⟨j, Nat.lt_succ_of_lt hj, hpe⟩
      destNodup := inv.destNodup
      srcNodup := inv.srcNodup
      prevFreeDest := inv.prevFreeDest
      prevFreeSrc := inv.prevFreeSrc
      defFreeSrc := inv.defFreeSrc
      mergeLater := inv.mergeLater
      mergeDestLow := inv.mergeDestLow
      evValues := inv.evValues }

/-- Invariant preservation: first tile of the line, already at its slot. -/
theorem lineInv_step_first_stay (b : Board) (lt : List Position) (hnd : lt.Nodup) (k : Nat)
    (hk : k < lt.length) (st : LineState) (dm : Option Nat)
    (inv : LineInv b lt k dm st) (v : Nat)
    (hbv : b.tiles (pAt lt k) = Value.Number v)
    (hpend : specPend b lt k = none)
    (hkL : k = (specDone b lt k).length) :
    LineInv b lt (k + 1) none (lineStep lt st (pAt lt k)) := by
  have hprev : st.prev = none := by rw [inv.prev, hpend]; rfl
  have hdm : dm = none := by
    cases dm with
    | none => rfl
    | some m =>
        obtain ⟨x, hx, _⟩ := inv.defSome m rfl
        rw [hpend] at hx
        cases hx
  have hdefn : st.deferred = none := inv.defNone hdm
  have hfoc : st.focus_idx = (specDone b lt k).length := by rw [inv.focus, hpend]; rfl
  have hsp := spec_succ b lt k hk
  rw [hbv, hpend, stepSpec_number_none] at hsp
  obtain ⟨hD, hP⟩ := Prod.mk.inj hsp
  have hcurv : st.board.tiles (pAt lt k) = Value.Number v := by
    rw [inv.boardRest k le_rfl hk, hbv]
  have hcv : cloneVal (specDone b lt k) (some v) none k = Value.Number v := by
    have h0 := cloneVal_slot_none (specDone b lt k) v
    rw [← hkL] at h0
    exact h0
  have hstay : pAt lt k = lt.getD st.focus_idx ⟨0, 0⟩ := by
    rw [hfoc, ← hkL]; rfl
  have hstep := lineStep_eq_first_stay lt st (pAt lt k) v hcurv hprev hstay
  rw [hstep]
  exact
    { hk := hk
      size_eq := inv.size_eq
      focus := by rw [hD, hP, hfoc]; rfl
      prev := by rw [hD, hP, hfoc]; rfl
      pendSrc := by
        intro x hx
        rw [hP] at hx
        cases hx
        exact ⟨k, Nat.lt_succ_self k, hbv⟩
      defNone := fun _ => hdefn
      defSome := fun m hm => by cases hm
      boardLine := by
        intro j hj
        rw [hD, hP]
        rcases Nat.lt_succ_iff_lt_or_eq.mp hj with h | h
        · have hjL : j < (specDone b lt k).length := by omega
          rw [cloneVal_lt _ _ _ _ hjL]
          have := inv.boardLine j h
          rw [cloneVal_lt _ _ _ _ hjL] at this
          exact this
        · subst h
          rw [hcv]
          exact hcurv
      boardRest := fun j hj1 hj2 => inv.boardRest j (Nat.le_of_succ_le hj1) hj2
      boardOff := inv.boardOff
      replay := inv.replay
      stable := by
        rw [hD, hP]
        constructor
        · intro h j hj
          rcases Nat.lt_succ_iff_lt_or_eq.mp hj with h' | h'
          · have := inv.stable.mp h j h'
            have hjL : j < (specDone b lt k).length := by omega
            rw [cloneVal_lt _ _ _ _ hjL] at this ⊢
            exact this
          · subst h'
            rw [hcv]
            exact hbv
        · intro h
          refine inv.stable.mpr (fun j hj => ?_)
          have := h j (Nat.lt_succ_of_lt hj)
          have hjL : j < (specDone b lt k).length := by omega
          rw [cloneVal_lt _ _ _ _ hjL] at this ⊢
          exact this
      evDest := by
        intro e he
        obtain ⟨j, hj, hde⟩ := inv.evDest e he
        exact ⟨j, Nat.lt_succ_of_lt hj, hde⟩
      evSrc := by
        intro e he p hp
        obtain ⟨j, hj, hpe⟩ := inv.evSrc e he p hp
        exact ⟨j, Nat.lt_succ_of_lt hj, hpe⟩
      destNodup := inv.destNodup
      srcNodup := inv.srcNodup
      prevFreeDest := by
        intro s v' hsv hmem
        cases hsv
        obtain ⟨e, he, hdeq⟩ := List.mem_map.mp hmem
        obtain ⟨j, hjf, hdj⟩ := inv.evDest e he
        have : j = st.focus_idx :=
          pAt_inj lt hnd (by omega) (by rw [hfoc, ← hkL]; exact hk) (by rw [← hdj, hdeq])
        omega
      prevFreeSrc := by
        intro s v' hsv _ hmem
        cases hsv
        simp only [List.mem_flatten, List.mem_map] at hmem
        obtain ⟨l, ⟨e, he, hle⟩, hpl⟩ := hmem
        obtain ⟨j, hj, hpe⟩ := inv.evSrc e he _ (hle ▸ hpl)
        have : j = st.focus_idx :=
          pAt_inj lt hnd (by omega) (by rw [hfoc, ← hkL]; exact hk) (by rw [← hpe])
        omega
      defFreeSrc := fun m hm => by cases hm
      mergeLater := inv.mergeLater
      mergeDestLow := by
        intro e he hme
        obtain ⟨s, hds, hsf, _, _⟩ := inv.mergeDestLow e he hme
        exact ⟨s, hds, Nat.lt_succ_of_lt hsf, fun s' v' hv' => by cases hv'; omega,
          fun m hm => by cases hm⟩
      evValues := inv.evValues }

/-- Invariant preservation: first tile of the line, sliding to its slot
(a new deferred slide is registered). -/
theorem lineInv_step_first_slide (b : Board) (lt : List Position) (hnd : lt.Nodup) (k : Nat)
    (hk : k < lt.length) (st : LineState) (dm : Option Nat)
    (inv : LineInv b lt k dm st) (v : Nat)
    (hbv : b.tiles (pAt lt k) = Value.Number v)
    (hpend : specPend b lt k = none)
    (hLk : (specDone b lt k).length < k) :
    LineInv b lt (k + 1) (some k) (lineStep lt st (pAt lt k)) := by
  have hprev : st.prev = none := by rw [inv.prev, hpend]; rfl
  have hdm : dm = none := by
    cases dm with
    | none => rfl
    | some m =>
        obtain ⟨x, hx, _⟩ := inv.defSome m rfl
        rw [hpend] at hx
        cases hx
  have hdefn : st.deferred = none := inv.defNone hdm
  have hfoc : st.focus_idx = (specDone b lt k).length := by rw [inv.focus, hpend]; rfl
  have hsp := spec_succ b lt k hk
  rw [hbv, hpend, stepSpec_number_none] at hsp
  obtain ⟨hD, hP⟩ := Prod.mk.inj hsp
  have hcurv : st.board.tiles (pAt lt k) = Value.Number v := by
    rw [inv.boardRest k le_rfl hk, hbv]
  have htile : st.board.get_tile (pAt lt k) = ⟨Value.Number v, pAt lt k⟩ := by
    rw [Board.get_tile, Board.get_value, hcurv]
  have hLlen : (specDone b lt k).length < lt.length := Nat.lt_trans hLk hk
  have hmove : pAt lt k ≠ lt.getD st.focus_idx ⟨0, 0⟩ := by
    rw [hfoc]
    exact pAt_ne lt hnd hk hLlen (Nat.ne_of_gt hLk)
  have hstep := lineStep_eq_first_slide lt st (pAt lt k) v hcurv hprev hmove
  rw [hstep]
  exact
    { hk := hk
      size_eq := inv.size_eq
      focus := by rw [hD, hP, hfoc]; rfl
      prev := by rw [hD, hP, hfoc]; rfl
      pendSrc := by
        intro x hx
        rw [hP] at hx
        cases hx
        exact ⟨k, Nat.lt_succ_self k, hbv⟩
      defNone := fun h => by cases h
      defSome := by
        intro m hm
        cases hm
        refine ⟨v, hP, ?_, Nat.lt_succ_self k, ?_, hbv⟩
        · rw [hD]; omega
        · show some (st.board.get_tile (pAt lt k), lt.getD st.focus_idx ⟨0, 0⟩) = _
          rw [htile, hD, ← hfoc]
          rfl
      boardLine := by
        intro j hj
        rw [hD, hP]
        rcases Nat.lt_succ_iff_lt_or_eq.mp hj with h | h
        · have hbl := inv.boardLine j h
          rw [hpend, hdm] at hbl
          show st.board.tiles (pAt lt j) = _
          rcases Nat.lt_or_ge j (specDone b lt k).length with hjL | hjL
          · rw [cloneVal_lt _ _ _ _ hjL] at hbl
            rw [cloneVal_lt _ _ _ _ hjL]
            exact hbl
          · rw [cloneVal_ge_none _ _ _ hjL] at hbl
            rw [cloneVal_ge_some_some _ _ _ _ hjL (Nat.ne_of_lt h)]
            exact hbl
        · subst h
          show st.board.tiles (pAt lt j) = _
          rw [cloneVal_dm_self _ _ _ (le_of_lt hLk)]
          exact hcurv
      boardRest := fun j hj1 hj2 => inv.boardRest j (Nat.le_of_succ_le hj1) hj2
      boardOff := inv.boardOff
      replay := inv.replay
      stable := by
        constructor
        · intro h
          exact absurd h.2 (by simp)
        · intro h
          have hkk := h k (Nat.lt_succ_self k)
          rw [hbv, hD, hP,
            cloneVal_ge_some_none _ _ _ (le_of_lt hLk) (Nat.ne_of_gt hLk)] at hkk
          cases hkk
      evDest := by
        intro e he
        obtain ⟨j, hj, hde⟩ := inv.evDest e he
        exact ⟨j, Nat.lt_succ_of_lt hj, hde⟩
      evSrc := by
        intro e he p hp
        obtain ⟨j, hj, hpe⟩ := inv.evSrc e he p hp
        exact ⟨j, Nat.lt_succ_of_lt hj, hpe⟩
      destNodup := inv.destNodup
      srcNodup := inv.srcNodup
      prevFreeDest := by
        intro s v' hsv hmem
        cases hsv
        obtain ⟨e, he, hdeq⟩ := List.mem_map.mp hmem
        obtain ⟨j, hjf, hdj⟩ := inv.evDest e he
        have : j = st.focus_idx :=
          pAt_inj lt hnd (by omega) (by omega) (by rw [← hdj, hdeq])
        omega
      prevFreeSrc := by
        intro s v' _ hdef
        exact absurd hdef (by simp)
      defFreeSrc := by
        intro m hm hmem
        cases hm
        simp only [List.mem_flatten, List.mem_map] at hmem
        obtain ⟨l, ⟨e, he, hle⟩, hpl⟩ := hmem
        obtain ⟨j, hj, hpe⟩ := inv.evSrc e he _ (hle ▸ hpl)
        have : j = k := pAt_inj lt hnd (by omega) hk (by rw [← hpe])
        omega
      mergeLater := inv.mergeLater
      mergeDestLow := by
        intro e he hme
        obtain ⟨s, hds, hsf, _hp, _hd⟩ := inv.mergeDestLow e he hme
        refine ⟨s, hds, Nat.lt_succ_of_lt hsf, ?_, ?_⟩
        · intro s' v' h
          cases h
          exact hsf
        · intro m hm
          cases hm
          omega
      evValues := inv.evValues }

/-- Invariant preservation: merge converting a live deferred slide — the
deferred slide's destination becomes the merge target. -/
theorem lineInv_step_merge_def (b : Board) (lt : List Position) (hnd : lt.Nodup) (k : Nat)
    (hk : k < lt.length) (st : LineState) (m : Nat)
    (inv : LineInv b lt k (some m) st) (x : Nat)
    (hpend : specPend b lt k = some x)
    (hbv : b.tiles (pAt lt k) = Value.Number x)
    (hxlt : x < MAX_TILE_VALUE) :
    LineInv b lt (k + 1) none (lineStep lt st (pAt lt k)) := by
  obtain ⟨x', hx', hm1, hm2, hdef, hbm⟩ := inv.defSome m rfl
  rw [hpend] at hx'
  cases hx'
  have hprev : st.prev = some ((specDone b lt k).length, x) := by rw [inv.prev, hpend]; rfl
  have hfoc : st.focus_idx = (specDone b lt k).length + 1 := by rw [inv.focus, hpend]; rfl
  have hplaced := spec_placed_le b lt k (le_of_lt hk)
  rw [hpend] at hplaced
  simp only [pendCount] at hplaced
  have hLk : (specDone b lt k).length + 1 ≤ k := hplaced
  have hLlen : (specDone b lt k).length < lt.length := by omega
  have hmlen : m < lt.length := by omega
  have hsp := spec_succ b lt k hk
  rw [hbv, hpend, stepSpec_number_merge _ _ _ ⟨rfl, hxlt⟩] at hsp
  obtain ⟨hD, hP⟩ := Prod.mk.inj hsp
  have hcurv : st.board.tiles (pAt lt k) = Value.Number x := by
    rw [inv.boardRest k le_rfl hk, hbv]
  have htile : st.board.get_tile (pAt lt k) = ⟨Value.Number x, pAt lt k⟩ := by
    rw [Board.get_tile, Board.get_value, hcurv]
  have hstep := lineStep_eq_merge_def lt st (pAt lt k) x (specDone b lt k).length x
    ⟨Value.Number x, pAt lt m⟩ (pAt lt (specDone b lt k).length)
    hcurv hprev ⟨rfl, hxlt⟩ hdef
  rw [htile] at hstep
  rw [hstep]
  set L := (specDone b lt k).length with hLdef
  set e := Action.MergeTiles ⟨Value.Number x, pAt lt m⟩ ⟨Value.Number x, pAt lt k⟩
    (pAt lt L) ((Value.Number x).merge (Value.Number x)) with hedef
  have hmval : (Value.Number x).merge (Value.Number x) = Value.Number (x + x) := rfl
  have hD1 : (specDone b lt (k + 1)).length = L + 1 := by
    rw [hD, List.length_append]
    rfl
  have hDgetL : (specDone b lt (k + 1)).getD L 0 = 2 * x := by
    rw [hD, List.getD_eq_getElem _ _ (by rw [List.length_append, List.length_singleton]; omega),
      List.getElem_append_right (le_refl L)]
    simp
  have hDgetlt : ∀ j, j < L → (specDone b lt (k + 1)).getD j 0 = (specDone b lt k).getD j 0 := by
    intro j hj
    rw [hD, List.getD_eq_getElem _ _ (by rw [List.length_append, List.length_singleton]; omega),
      List.getElem_append_left (by omega)]
    exact (List.getD_eq_getElem _ _ (by omega)).symm
  have hkL : pAt lt k ≠ pAt lt L := pAt_ne lt hnd hk hLlen (by omega)
  have hkm : pAt lt k ≠ pAt lt m := pAt_ne lt hnd hk hmlen (by omega)
  have hmL : pAt lt m ≠ pAt lt L := pAt_ne lt hnd hmlen hLlen (by omega)
  exact
    { hk := hk
      size_eq := by rw [size_apply]; exact inv.size_eq
      focus := by
        show st.focus_idx = _
        rw [hfoc, hP, hD1]
        rfl
      prev := by rw [hP]; rfl
      pendSrc := by
        intro y hy
        rw [hP] at hy
        cases hy
      defNone := fun _ => rfl
      defSome := fun m' hm' => by cases hm'
      boardLine := by
        intro j hj
        show (st.board.apply e).tiles (pAt lt j) = _
        rw [hP, hedef, tiles_apply_merge]
        by_cases hjL : j = L
        · subst hjL
          rw [if_pos rfl, hmval, cloneVal_lt _ _ _ _ (by omega), hDgetL]
          rw [show x + x = 2 * x from by omega]
        · rw [if_neg (pAt_ne lt hnd (by omega) hLlen hjL)]
          by_cases hjk : j = k
          · subst hjk
            rw [if_pos rfl, cloneVal_ge_none _ _ _ (by omega)]
          · rw [if_neg (pAt_ne lt hnd (by omega) hk hjk)]
            have hjk' : j < k := by omega
            by_cases hjm : j = m
            · subst hjm
              rw [if_pos rfl, cloneVal_ge_none _ _ _ (by omega)]
            · rw [if_neg (pAt_ne lt hnd (by omega) hmlen hjm)]
              have hbl := inv.boardLine j hjk'
              rw [hpend] at hbl
              rcases Nat.lt_or_ge j L with hj2 | hj2
              · rw [cloneVal_lt _ _ _ _ hj2] at hbl
                rw [cloneVal_lt _ _ _ _ (by omega), hDgetlt j hj2]
                exact hbl
              · rw [cloneVal_ge_some_some _ _ _ _ hj2 hjm] at hbl
                rw [cloneVal_ge_none _ _ _ (by omega)]
                exact hbl
      boardRest := by
        intro j hj1 hj2
        show (st.board.apply e).tiles (pAt lt j) = _
        rw [hedef, tiles_apply_merge,
          if_neg (pAt_ne lt hnd hj2 hLlen (by omega)),
          if_neg (pAt_ne lt hnd hj2 hk (by omega)),
          if_neg (pAt_ne lt hnd hj2 hmlen (by omega))]
        exact inv.boardRest j (by omega) hj2
      boardOff := by
        intro p hp
        show (st.board.apply e).tiles p = _
        rw [hedef, tiles_apply_merge,
          if_neg (fun he => hp (by rw [he]; exact pAt_mem lt L hLlen)),
          if_neg (fun he => hp (by rw [he]; exact pAt_mem lt k hk)),
          if_neg (fun he => hp (by rw [he]; exact pAt_mem lt m hmlen))]
        exact inv.boardOff p hp
      replay := by
        show st.board.apply e = applyEvents (st.events ++ [e]) b
        rw [applyEvents_append, ← inv.replay]
        rfl
      stable := by
        constructor
        · intro h
          exact absurd h.1 (by simp)
        · intro h
          have hkk := h k (Nat.lt_succ_self k)
          rw [hbv, hP, cloneVal_ge_none _ _ _ (by omega)] at hkk
          cases hkk
      evDest := by
        intro e' he'
        rcases List.mem_append.mp he' with h | h
        · obtain ⟨j, hj, hde⟩ := inv.evDest e' h
          exact ⟨j, hj, hde⟩
        · rw [List.mem_singleton.mp h]
          refine ⟨L, ?_, rfl⟩
          show L < st.focus_idx
          omega
      evSrc := by
        intro e' he' p hp
        rcases List.mem_append.mp he' with h | h
        · obtain ⟨j, hj, hpe⟩ := inv.evSrc e' h p hp
          exact ⟨j, Nat.lt_succ_of_lt hj, hpe⟩
        · rw [List.mem_singleton.mp h] at hp
          rcases List.mem_cons.mp hp with h' | h'
          · exact ⟨m, by omega, h'⟩
          · rw [List.mem_singleton.mp h']
            exact ⟨k, Nat.lt_succ_self k, rfl⟩
      destNodup := by
        rw [List.map_append]
        refine List.nodup_append.mpr ⟨inv.destNodup, List.nodup_singleton _, ?_⟩
        intro y hy hy'
        rw [show (List.map Action.destPos [e]) = [pAt lt L] from rfl] at hy'
        rw [List.mem_singleton.mp hy'] at hy
        exact inv.prevFreeDest L x hprev hy
      srcNodup := by
        rw [List.map_append, List.flatten_append]
        refine List.nodup_append.mpr ⟨inv.srcNodup, ?_, ?_⟩
        · rw [show ((List.map Action.srcPositions [e]).flatten) = [pAt lt m, pAt lt k] from rfl]
          simp [hkm.symm]
        · intro y hy hy'
          rw [show ((List.map Action.srcPositions [e]).flatten) = [pAt lt m, pAt lt k]
            from rfl] at hy'
          rcases List.mem_cons.mp hy' with h' | h'
          · rw [h'] at hy
            exact inv.defFreeSrc m rfl hy
          · rw [List.mem_singleton.mp h'] at hy
            obtain ⟨l, hl, hyl⟩ := List.mem_flatten.mp hy
            obtain ⟨e', he', hle⟩ := List.mem_map.mp hl
            obtain ⟨j, hj, hpe⟩ := inv.evSrc e' he' _ (hle ▸ hyl)
            exact absurd hpe (pAt_ne lt hnd hk (by omega) (by omega))
      prevFreeDest := fun s v' h => by cases h
      prevFreeSrc := fun s v' h => by cases h
      defFreeSrc := fun m' hm' => by cases hm'
      mergeLater := by
        refine List.pairwise_append.mpr ⟨inv.mergeLater, List.pairwise_singleton _ _, ?_⟩
        intro e1 he1 e2 he2 hme
        rw [List.mem_singleton.mp he2]
        obtain ⟨s, hds, hsf, hp, hd⟩ := inv.mergeDestLow e1 he1 hme
        rw [hds]
        have hsm : s < m := hd m rfl
        have hsL : s < L := hp L x hprev
        intro hmem
        rcases List.mem_cons.mp hmem with h' | h'
        · exact pAt_ne lt hnd (by omega) hmlen (by omega) h'
        · rw [List.mem_singleton] at h'
          exact pAt_ne lt hnd (by omega) hk (by omega) h'
      mergeDestLow := by
        intro e' he' hme
        rcases List.mem_append.mp he' with h | h
        · obtain ⟨s, hds, hsf, _hp, _hd⟩ := inv.mergeDestLow e' h hme
          refine ⟨s, hds, ?_, ?_, ?_⟩
          · show s < st.focus_idx
            exact hsf
          · intro s' v' h'
            exact absurd (show (none : Option (Nat × Nat)) = some (s', v') from h') (by simp)
          · intro m' hm'
            exact absurd hm' (by simp)
        · rw [List.mem_singleton.mp h]
          refine ⟨L, rfl, ?_, ?_, ?_⟩
          · show L < st.focus_idx
            omega
          · intro s' v' h'
            exact absurd (show (none : Option (Nat × Nat)) = some (s', v') from h') (by simp)
          · intro m' hm'
            exact absurd hm' (by simp)
      evValues := by
        intro e' he'
        rcases List.mem_append.mp he' with h | h
        · exact inv.evValues e' h
        · rw [List.mem_singleton.mp h, hedef, hmval]
          exact ⟨x, rfl, rfl, hxlt, ⟨pAt lt m, pAt_mem lt m hmlen, hbm⟩, rfl⟩ }

/-- Invariant preservation: merge with no deferred slide — the merge
consumes the tile sitting at the previous slot, in place. -/
theorem lineInv_step_merge_nodef (b : Board) (lt : List Position) (hnd : lt.Nodup) (k : Nat)
    (hk : k < lt.length) (st : LineState)
    (inv : LineInv b lt k none st) (x : Nat)
    (hpend : specPend b lt k = some x)
    (hbv : b.tiles (pAt lt k) = Value.Number x)
    (hxlt : x < MAX_TILE_VALUE) :
    LineInv b lt (k + 1) none (lineStep lt st (pAt lt k)) := by
  have hdefn : st.deferred = none := inv.defNone rfl
  have hprev : st.prev = some ((specDone b lt k).length, x) := by rw [inv.prev, hpend]; rfl
  have hfoc : st.focus_idx = (specDone b lt k).length + 1 := by rw [inv.focus, hpend]; rfl
  have hplaced := spec_placed_le b lt k (le_of_lt hk)
  rw [hpend] at hplaced
  simp only [pendCount] at hplaced
  have hLk : (specDone b lt k).length + 1 ≤ k := hplaced
  have hLlen : (specDone b lt k).length < lt.length := by omega
  have hsp := spec_succ b lt k hk
  rw [hbv, hpend, stepSpec_number_merge _ _ _ ⟨rfl, hxlt⟩] at hsp
  obtain ⟨hD, hP⟩ := Prod.mk.inj hsp
  have hcurv : st.board.tiles (pAt lt k) = Value.Number x := by
    rw [inv.boardRest k le_rfl hk, hbv]
  have htile : st.board.get_tile (pAt lt k) = ⟨Value.Number x, pAt lt k⟩ := by
    rw [Board.get_tile, Board.get_value, hcurv]
  set L := (specDone b lt k).length with hLdef
  have hslotv : st.board.tiles (pAt lt L) = Value.Number x := by
    have := inv.boardLine L (by omega)
    rw [hpend] at this
    rw [this]
    exact cloneVal_slot_none _ _
  have htile1 : st.board.get_tile (lt.getD L ⟨0, 0⟩) = ⟨Value.Number x, pAt lt L⟩ := by
    rw [Board.get_tile, Board.get_value]
    show (⟨st.board.tiles (pAt lt L), pAt lt L⟩ : Tile) = _
    rw [hslotv]
  have hstep := lineStep_eq_merge_nodef lt st (pAt lt k) x L x hcurv hprev ⟨rfl, hxlt⟩ hdefn
  rw [htile, htile1, show lt.getD L ⟨0, 0⟩ = pAt lt L from rfl] at hstep
  rw [hstep]
  set e := Action.MergeTiles ⟨Value.Number x, pAt lt L⟩ ⟨Value.Number x, pAt lt k⟩
    (pAt lt L) ((Value.Number x).merge (Value.Number x)) with hedef
  have hmval : (Value.Number x).merge (Value.Number x) = Value.Number (x + x) := rfl
  have hD1 : (specDone b lt (k + 1)).length = L + 1 := by
    rw [hD, List.length_append]
    rfl
  have hDgetL : (specDone b lt (k + 1)).getD L 0 = 2 * x := by
    rw [hD, List.getD_eq_getElem _ _ (by rw [List.length_append, List.length_singleton]; omega),
      List.getElem_append_right (le_refl L)]
    simp
  have hDgetlt : ∀ j, j < L → (specDone b lt (k + 1)).getD j 0 = (specDone b lt k).getD j 0 := by
    intro j hj
    rw [hD, List.getD_eq_getElem _ _ (by rw [List.length_append, List.length_singleton]; omega),
      List.getElem_append_left (by omega)]
    exact (List.getD_eq_getElem _ _ (by omega)).symm
  have hkL : pAt lt k ≠ pAt lt L := pAt_ne lt hnd hk hLlen (by omega)
  exact
    { hk := hk
      size_eq := by rw [size_apply]; exact inv.size_eq
      focus := by
        show st.focus_idx = _
        rw [hfoc, hP, hD1]
        rfl
      prev := by rw [hP]; rfl
      pendSrc := by
        intro y hy
        rw [hP] at hy
        cases hy
      defNone := fun _ => rfl
      defSome := fun m' hm' => by cases hm'
      boardLine := by
        intro j hj
        show (st.board.apply e).tiles (pAt lt j) = _
        rw [hP, hedef, tiles_apply_merge]
        by_cases hjL : j = L
        · subst hjL
          rw [if_pos rfl, hmval, cloneVal_lt _ _ _ _ (by omega), hDgetL]
          rw [show x + x = 2 * x from by omega]
        · rw [if_neg (pAt_ne lt hnd (by omega) hLlen hjL)]
          by_cases hjk : j = k
          · subst hjk
            rw [if_pos rfl, cloneVal_ge_none _ _ _ (by omega)]
          · rw [if_neg (pAt_ne lt hnd (by omega) hk hjk),
              if_neg (pAt_ne lt hnd (by omega) hLlen hjL)]
            have hjk' : j < k := by omega
            have hbl := inv.boardLine j hjk'
            rw [hpend] at hbl
            rcases Nat.lt_or_ge j L with hj2 | hj2
            · rw [cloneVal_lt _ _ _ _ hj2] at hbl
              rw [cloneVal_lt _ _ _ _ (by omega), hDgetlt j hj2]
              exact hbl
            · rw [cloneVal_ge_some_none _ _ _ hj2 hjL] at hbl
              rw [cloneVal_ge_none _ _ _ (by omega)]
              exact hbl
      boardRest := by
        intro j hj1 hj2
        show (st.board.apply e).tiles (pAt lt j) = _
        rw [hedef, tiles_apply_merge,
          if_neg (pAt_ne lt hnd hj2 hLlen (by omega)),
          if_neg (pAt_ne lt hnd hj2 hk (by omega)),
          if_neg (pAt_ne lt hnd hj2 hLlen (by omega))]
        exact inv.boardRest j (by omega) hj2
      boardOff := by
        intro p hp
        show (st.board.apply e).tiles p = _
        rw [hedef, tiles_apply_merge,
          if_neg (fun he => hp (by rw [he]; exact pAt_mem lt L hLlen)),
          if_neg (fun he => hp (by rw [he]; exact pAt_mem lt k hk)),
          if_neg (fun he => hp (by rw [he]; exact pAt_mem lt L hLlen))]
        exact inv.boardOff p hp
      replay := by
        show st.board.apply e = applyEvents (st.events ++ [e]) b
        rw [applyEvents_append, ← inv.replay]
        rfl
      stable := by
        constructor
        · intro h
          exact absurd h.1 (by simp)
        · intro h
          have hkk := h k (Nat.lt_succ_self k)
          rw [hbv, hP, cloneVal_ge_none _ _ _ (by omega)] at hkk
          cases hkk
      evDest := by
        intro e' he'
        rcases List.mem_append.mp he' with h | h
        · obtain ⟨j, hj, hde⟩ := inv.evDest e' h
          exact ⟨j, hj, hde⟩
        · rw [List.mem_singleton.mp h]
          refine ⟨L, ?_, rfl⟩
          show L < st.focus_idx
          omega
      evSrc := by
        intro e' he' p hp
        rcases List.mem_append.mp he' with h | h
        · obtain ⟨j, hj, hpe⟩ := inv.evSrc e' h p hp
          exact ⟨j, Nat.lt_succ_of_lt hj, hpe⟩
        · rw [List.mem_singleton.mp h] at hp
          rcases List.mem_cons.mp hp with h' | h'
          · exact ⟨L, by omega, h'⟩
          · rw [List.mem_singleton.mp h']
            exact ⟨k, Nat.lt_succ_self k, rfl⟩
      destNodup := by
        rw [List.map_append]
        refine List.nodup_append.mpr ⟨inv.destNodup, List.nodup_singleton _, ?_⟩
        intro y hy hy'
        rw [show (List.map Action.destPos [e]) = [pAt lt L] from rfl] at hy'
        rw [List.mem_singleton.mp hy'] at hy
        exact inv.prevFreeDest L x hprev hy
      srcNodup := by
        rw [List.map_append, List.flatten_append]
        refine List.nodup_append.mpr ⟨inv.srcNodup, ?_, ?_⟩
        · rw [show ((List.map Action.srcPositions [e]).flatten) = [pAt lt L, pAt lt k] from rfl]
          simp [hkL.symm]
        · intro y hy hy'
          rw [show ((List.map Action.srcPositions [e]).flatten) = [pAt lt L, pAt lt k]
            from rfl] at hy'
          rcases List.mem_cons.mp hy' with h' | h'
          · rw [h'] at hy
            exact inv.prevFreeSrc L x hprev hdefn hy
          · rw [List.mem_singleton.mp h'] at hy
            obtain ⟨l, hl, hyl⟩ := List.mem_flatten.mp hy
            obtain ⟨e', he', hle⟩ := List.mem_map.mp hl
            obtain ⟨j, hj, hpe⟩ := inv.evSrc e' he' _ (hle ▸ hyl)
            exact absurd hpe (pAt_ne lt hnd hk (by omega) (by omega))
      prevFreeDest := fun s v' h => by cases h
      prevFreeSrc := fun s v' h => by cases h
      defFreeSrc := fun m' hm' => by cases hm'
      mergeLater := by
        refine List.pairwise_append.mpr ⟨inv.mergeLater, List.pairwise_singleton _ _, ?_⟩
        intro e1 he1 e2 he2 hme
        rw [List.mem_singleton.mp he2]
        obtain ⟨s, hds, hsf, hp, _hd⟩ := inv.mergeDestLow e1 he1 hme
        rw [hds]
        have hsL : s < L := hp L x hprev
        intro hmem
        rcases List.mem_cons.mp hmem with h' | h'
        · exact pAt_ne lt hnd (by omega) hLlen (by omega) h'
        · rw [List.mem_singleton] at h'
          exact pAt_ne lt hnd (by omega) hk (by omega) h'
      mergeDestLow := by
        intro e' he' hme
        rcases List.mem_append.mp he' with h | h
        · obtain ⟨s, hds, hsf, _hp, _hd⟩ := inv.mergeDestLow e' h hme
          refine ⟨s, hds, ?_, ?_, ?_⟩
          · show s < st.focus_idx
            exact hsf
          · intro s' v' h'
            exact absurd (show (none : Option (Nat × Nat)) = some (s', v') from h') (by simp)
          · intro m' hm'
            exact absurd hm' (by simp)
        · rw [List.mem_singleton.mp h]
          refine ⟨L, rfl, ?_, ?_, ?_⟩
          · show L < st.focus_idx
            omega
          · intro s' v' h'
            exact absurd (show (none : Option (Nat × Nat)) = some (s', v') from h') (by simp)
          · intro m' hm'
            exact absurd hm' (by simp)
      evValues := by
        intro e' he'
        rcases List.mem_append.mp he' with h | h
        · exact inv.evValues e' h
        · rw [List.mem_singleton.mp h, hedef, hmval]
          obtain ⟨j, hj, hbj⟩ := inv.pendSrc x hpend
          exact ⟨x, rfl, rfl, hxlt, ⟨pAt lt j, pAt_mem lt j (by omega), hbj⟩, rfl⟩ }

/-- Invariant preservation: non-merging tile already at its slot. -/
theorem lineInv_step_stay (b : Board) (lt : List Position) (hnd : lt.Nodup) (k : Nat)
    (hk : k < lt.length) (st : LineState) (dm : Option Nat)
    (inv : LineInv b lt k dm st) (x v : Nat)
    (hpend : specPend b lt k = some x)
    (hbv : b.tiles (pAt lt k) = Value.Number v)
    (hnm : ¬(x = v ∧ x < MAX_TILE_VALUE))
    (hkL1 : k = (specDone b lt k).length + 1) :
    LineInv b lt (k + 1) none (lineStep lt st (pAt lt k)) := by
  have hprev : st.prev = some ((specDone b lt k).length, x) := by rw [inv.prev, hpend]; rfl
  have hfoc : st.focus_idx = (specDone b lt k).length + 1 := by rw [inv.focus, hpend]; rfl
  set L := (specDone b lt k).length with hLdef
  have hdm : dm = none := by
    cases dm with
    | none => rfl
    | some m =>
        obtain ⟨x', _, hm1, hm2, _, _⟩ := inv.defSome m rfl
        omega
  have hdefn : st.deferred = none := inv.defNone hdm
  have hLlen : L < lt.length := by omega
  have hsp := spec_succ b lt k hk
  rw [hbv, hpend, stepSpec_number_nomerge _ _ _ hnm] at hsp
  obtain ⟨hD, hP⟩ := Prod.mk.inj hsp
  have hcurv : st.board.tiles (pAt lt k) = Value.Number v := by
    rw [inv.boardRest k le_rfl hk, hbv]
  have hD1 : (specDone b lt (k + 1)).length = L + 1 := by
    rw [hD, List.length_append]
    rfl
  have hDgetL : (specDone b lt (k + 1)).getD L 0 = x := by
    rw [hD, List.getD_eq_getElem _ _ (by rw [List.length_append, List.length_singleton]; omega),
      List.getElem_append_right (le_refl L)]
    simp
  have hDgetlt : ∀ j, j < L → (specDone b lt (k + 1)).getD j 0 = (specDone b lt k).getD j 0 := by
    intro j hj
    rw [hD, List.getD_eq_getElem _ _ (by rw [List.length_append, List.length_singleton]; omega),
      List.getElem_append_left (by omega)]
    exact (List.getD_eq_getElem _ _ (by omega)).symm
  have hcvk : cloneVal (specDone b lt (k + 1)) (some v) none k = Value.Number v := by
    have h0 := cloneVal_slot_none (specDone b lt (k + 1)) v
    rw [hD1, ← hkL1] at h0
    exact h0
  have hcvlt : ∀ j, j < k →
      cloneVal (specDone b lt (k + 1)) (some v) none j
        = cloneVal (specDone b lt k) (some x) none j := by
    intro j hj
    rcases Nat.lt_or_ge j L with hj2 | hj2
    · rw [cloneVal_lt _ _ _ _ (by omega), cloneVal_lt _ _ _ _ hj2, hDgetlt j hj2]
    · have hjL : j = L := by omega
      subst hjL
      rw [cloneVal_lt _ _ _ _ (by omega), hDgetL]
      exact (cloneVal_slot_none (specDone b lt k) x).symm
  have hstay : pAt lt k = lt.getD st.focus_idx ⟨0, 0⟩ := by
    rw [hfoc, ← hkL1]; rfl
  have hstep := lineStep_eq_stay lt st (pAt lt k) v L x hcurv hprev hnm hstay
  rw [hstep]
  exact
    { hk := hk
      size_eq := inv.size_eq
      focus := by
        show st.focus_idx + 1 = _
        rw [hfoc, hP, hD1]
        rfl
      prev := by
        show some (st.focus_idx, v) = _
        rw [hfoc, hP, hD1, ← hkL1]
        rfl
      pendSrc := by
        intro y hy
        rw [hP] at hy
        cases hy
        exact ⟨k, Nat.lt_succ_self k, hbv⟩
      defNone := fun _ => hdefn
      defSome := fun m hm => by cases hm
      boardLine := by
        intro j hj
        show st.board.tiles (pAt lt j) = _
        rw [hP]
        rcases Nat.lt_succ_iff_lt_or_eq.mp hj with h | h
        · rw [hcvlt j h]
          have hbl := inv.boardLine j h
          rw [hpend, hdm] at hbl
          exact hbl
        · subst h
          rw [hcvk]
          exact hcurv
      boardRest := fun j hj1 hj2 => inv.boardRest j (Nat.le_of_succ_le hj1) hj2
      boardOff := inv.boardOff
      replay := inv.replay
      stable := by
        rw [hP]
        have hold := inv.stable
        rw [hpend] at hold
        constructor
        · intro h j hj
          rcases Nat.lt_succ_iff_lt_or_eq.mp hj with h' | h'
          · rw [hcvlt j h']
            exact hold.mp h j h'
          · subst h'
            rw [hcvk]
            exact hbv
        · intro h
          refine hold.mpr (fun j hj => ?_)
          have := h j (Nat.lt_succ_of_lt hj)
          rw [hcvlt j hj] at this
          exact this
      evDest := by
        intro e he
        obtain ⟨j, hj, hde⟩ := inv.evDest e he
        exact ⟨j, Nat.lt_succ_of_lt hj, hde⟩
      evSrc := by
        intro e he p hp
        obtain ⟨j, hj, hpe⟩ := inv.evSrc e he p hp
        exact ⟨j, Nat.lt_succ_of_lt hj, hpe⟩
      destNodup := inv.destNodup
      srcNodup := inv.srcNodup
      prevFreeDest := by
        intro s v' hsv hmem
        cases hsv
        obtain ⟨e, he, hdeq⟩ := List.mem_map.mp hmem
        obtain ⟨j, hjf, hdj⟩ := inv.evDest e he
        have : j = st.focus_idx :=
          pAt_inj lt hnd (by omega) (by omega) (by rw [← hdj, hdeq])
        omega
      prevFreeSrc := by
        intro s v' hsv _ hmem
        cases hsv
        simp only [List.mem_flatten, List.mem_map] at hmem
        obtain ⟨l, ⟨e, he, hle⟩, hpl⟩ := hmem
        obtain ⟨j, hj, hpe⟩ := inv.evSrc e he _ (hle ▸ hpl)
        have : j = st.focus_idx :=
          pAt_inj lt hnd (by omega) (by omega) (by rw [← hpe])
        omega
      defFreeSrc := fun m hm => by cases hm
      mergeLater := inv.mergeLater
      mergeDestLow := by
        intro e he hme
        obtain ⟨s, hds, hsf, _hp, _hd⟩ := inv.mergeDestLow e he hme
        refine ⟨s, hds, ?_, ?_, ?_⟩
        · show s < st.focus_idx + 1
          omega
        · intro s' v' h'
          have : s' = st.focus_idx := by
            have := congrArg (fun o => Option.map Prod.fst o) h'
            simpa using this.symm
          omega
        · intro m' hm'
          exact absurd hm' (by simp)
      evValues := inv.evValues }

/-- Invariant preservation: non-merging sliding tile, no deferred slide
pending — a new deferred slide is registered. -/
theorem lineInv_step_slide_nodef (b : Board) (lt : List Position) (hnd : lt.Nodup) (k : Nat)
    (hk : k < lt.length) (st : LineState)
    (inv : LineInv b lt k none st) (x v : Nat)
    (hpend : specPend b lt k = some x)
    (hbv : b.tiles (pAt lt k) = Value.Number v)
    (hnm : ¬(x = v ∧ x < MAX_TILE_VALUE))
    (hkgt : (specDone b lt k).length + 1 < k) :
    LineInv b lt (k + 1) (some k) (lineStep lt st (pAt lt k)) := by
  have hdefn : st.deferred = none := inv.defNone rfl
  have hprev : st.prev = some ((specDone b lt k).length, x) := by rw [inv.prev, hpend]; rfl
  have hfoc : st.focus_idx = (specDone b lt k).length + 1 := by rw [inv.focus, hpend]; rfl
  set L := (specDone b lt k).length with hLdef
  have hLlen : L < lt.length := by omega
  have hsp := spec_succ b lt k hk
  rw [hbv, hpend, stepSpec_number_nomerge _ _ _ hnm] at hsp
  obtain ⟨hD, hP⟩ := Prod.mk.inj hsp
  have hcurv : st.board.tiles (pAt lt k) = Value.Number v := by
    rw [inv.boardRest k le_rfl hk, hbv]
  have htile : st.board.get_tile (pAt lt k) = ⟨Value.Number v, pAt lt k⟩ := by
    rw [Board.get_tile, Board.get_value, hcurv]
  have hD1 : (specDone b lt (k + 1)).length = L + 1 := by
    rw [hD, List.length_append]
    rfl
  have hDgetL : (specDone b lt (k + 1)).getD L 0 = x := by
    rw [hD, List.getD_eq_getElem _ _ (by rw [List.length_append, List.length_singleton]; omega),
      List.getElem_append_right (le_refl L)]
    simp
  have hDgetlt : ∀ j, j < L → (specDone b lt (k + 1)).getD j 0 = (specDone b lt k).getD j 0 := by
    intro j hj
    rw [hD, List.getD_eq_getElem _ _ (by rw [List.length_append, List.length_singleton]; omega),
      List.getElem_append_left (by omega)]
    exact (List.getD_eq_getElem _ _ (by omega)).symm
  have hmove : pAt lt k ≠ lt.getD st.focus_idx ⟨0, 0⟩ := by
    rw [hfoc]
    exact pAt_ne lt hnd hk (by omega) (by omega)
  have hstep := lineStep_eq_slide_nodef lt st (pAt lt k) v L x hcurv hprev hnm hmove hdefn
  rw [htile] at hstep
  rw [hstep]
  exact
    { hk := hk
      size_eq := inv.size_eq
      focus := by
        show st.focus_idx + 1 = _
        rw [hfoc, hP, hD1]
        rfl
      prev := by
        show some (st.focus_idx, v) = _
        rw [hfoc, hP, hD1]
        rfl
      pendSrc := by
        intro y hy
        rw [hP] at hy
        cases hy
        exact ⟨k, Nat.lt_succ_self k, hbv⟩
      defNone := fun h => by cases h
      defSome := by
        intro m hm
        cases hm
        refine ⟨v, hP, ?_, Nat.lt_succ_self k, ?_, hbv⟩
        · rw [hD1]; omega
        · rw [hD1, ← hfoc]
          rfl
      boardLine := by
        intro j hj
        show st.board.tiles (pAt lt j) = _
        rw [hP]
        rcases Nat.lt_succ_iff_lt_or_eq.mp hj with h | h
        · have hbl := inv.boardLine j h
          rw [hpend] at hbl
          rcases Nat.lt_or_ge j L with hj2 | hj2
          · rw [cloneVal_lt _ _ _ _ hj2] at hbl
            rw [cloneVal_lt _ _ _ _ (by omega), hDgetlt j hj2]
            exact hbl
          · rcases Nat.eq_or_lt_of_le hj2 with hj3 | hj3
            · subst hj3
              rw [cloneVal_lt _ _ _ _ (by omega), hDgetL]
              have hsl : cloneVal (specDone b lt k) (some x) none L = Value.Number x :=
                cloneVal_slot_none _ _
              rw [hsl] at hbl
              exact hbl
            · rw [cloneVal_ge_some_none _ _ _ hj2 (by omega)] at hbl
              rw [cloneVal_ge_some_some _ _ _ _ (by omega) (by omega)]
              exact hbl
        · subst h
          rw [cloneVal_dm_self _ _ _ (by omega)]
          exact hcurv
      boardRest := fun j hj1 hj2 => inv.boardRest j (Nat.le_of_succ_le hj1) hj2
      boardOff := inv.boardOff
      replay := inv.replay
      stable := by
        constructor
        · intro h
          exact absurd h.2 (by simp)
        · intro h
          have hkk := h k (Nat.lt_succ_self k)
          rw [hbv, hP, cloneVal_ge_some_none _ _ _ (by omega) (by omega)] at hkk
          cases hkk
      evDest := by
        intro e he
        obtain ⟨j, hj, hde⟩ := inv.evDest e he
        exact ⟨j, Nat.lt_succ_of_lt hj, hde⟩
      evSrc := by
        intro e he p hp
        obtain ⟨j, hj, hpe⟩ := inv.evSrc e he p hp
        exact ⟨j, Nat.lt_succ_of_lt hj, hpe⟩
      destNodup := inv.destNodup
      srcNodup := inv.srcNodup
      prevFreeDest := by
        intro s v' hsv hmem
        cases hsv
        obtain ⟨e, he, hdeq⟩ := List.mem_map.mp hmem
        obtain ⟨j, hjf, hdj⟩ := inv.evDest e he
        have : j = st.focus_idx :=
          pAt_inj lt hnd (by omega) (by omega) (by rw [← hdj, hdeq])
        omega
      prevFreeSrc := by
        intro s v' _ hdef
        exact absurd hdef (by simp)
      defFreeSrc := by
        intro m hm hmem
        cases hm
        simp only [List.mem_flatten, List.mem_map] at hmem
        obtain ⟨l, ⟨e, he, hle⟩, hpl⟩ := hmem
        obtain ⟨j, hj, hpe⟩ := inv.evSrc e he _ (hle ▸ hpl)
        have : j = k := pAt_inj lt hnd (by omega) hk (by rw [← hpe])
        omega
      mergeLater := inv.mergeLater
      mergeDestLow := by
        intro e he hme
        obtain ⟨s, hds, hsf, _hp, _hd⟩ := inv.mergeDestLow e he hme
        refine ⟨s, hds, ?_, ?_, ?_⟩
        · show s < st.focus_idx + 1
          omega
        · intro s' v' h'
          have : s' = st.focus_idx := by
            have := congrArg (fun o => Option.map Prod.fst o) h'
            simpa using this.symm
          omega
        · intro m' hm'
          cases hm'
          omega
      evValues := inv.evValues }

/-- Invariant preservation: non-merging sliding tile with a deferred slide
pending — the deferred slide is flushed, a new one is registered. -/
theorem lineInv_step_slide_def (b : Board) (lt : List Position) (hnd : lt.Nodup) (k : Nat)
    (hk : k < lt.length) (st : LineState) (m : Nat)
    (inv : LineInv b lt k (some m) st) (x v : Nat)
    (hpend : specPend b lt k = some x)
    (hbv : b.tiles (pAt lt k) = Value.Number v)
    (hnm : ¬(x = v ∧ x < MAX_TILE_VALUE)) :
    LineInv b lt (k + 1) (some k) (lineStep lt st (pAt lt k)) := by
  obtain ⟨x', hx', hm1, hm2, hdef, hbm⟩ := inv.defSome m rfl
  rw [hpend] at hx'
  cases hx'
  have hprev : st.prev = some ((specDone b lt k).length, x) := by rw [inv.prev, hpend]; rfl
  have hfoc : st.focus_idx = (specDone b lt k).length + 1 := by rw [inv.focus, hpend]; rfl
  set L := (specDone b lt k).length with hLdef
  have hLlen : L < lt.length := by omega
  have hmlen : m < lt.length := by omega
  have hkgt : L + 1 < k := by omega
  have hsp := spec_succ b lt k hk
  rw [hbv, hpend, stepSpec_number_nomerge _ _ _ hnm] at hsp
  obtain ⟨hD, hP⟩ := Prod.mk.inj hsp
  have hcurv : st.board.tiles (pAt lt k) = Value.Number v := by
    rw [inv.boardRest k le_rfl hk, hbv]
  have hD1 : (specDone b lt (k + 1)).length = L + 1 := by
    rw [hD, List.length_append]
    rfl
  have hDgetL : (specDone b lt (k + 1)).getD L 0 = x := by
    rw [hD, List.getD_eq_getElem _ _ (by rw [List.length_append, List.length_singleton]; omega),
      List.getElem_append_right (le_refl L)]
    simp
  have hDgetlt : ∀ j, j < L → (specDone b lt (k + 1)).getD j 0 = (specDone b lt k).getD j 0 := by
    intro j hj
    rw [hD, List.getD_eq_getElem _ _ (by rw [List.length_append, List.length_singleton]; omega),
      List.getElem_append_left (by omega)]
    exact (List.getD_eq_getElem _ _ (by omega)).symm
  have hmove : pAt lt k ≠ lt.getD st.focus_idx ⟨0, 0⟩ := by
    rw [hfoc]
    exact pAt_ne lt hnd hk (by omega) (by omega)
  have hstep := lineStep_eq_slide_def lt st (pAt lt k) v L x ⟨Value.Number x, pAt lt m⟩
    (pAt lt L) hcurv hprev hnm hmove hdef
  set e1 := Action.SlideTile ⟨Value.Number x, pAt lt m⟩ (pAt lt L) with he1def
  have htile2 : (st.board.apply e1).get_tile (pAt lt k) = ⟨Value.Number v, pAt lt k⟩ := by
    rw [Board.get_tile, Board.get_value, he1def, tiles_apply_slide,
      if_neg (pAt_ne lt hnd hk hLlen (by omega))]
    show (⟨if pAt lt k = pAt lt m then Value.Empty else st.board.tiles (pAt lt k),
      pAt lt k⟩ : Tile) = _
    rw [if_neg (pAt_ne lt hnd hk hmlen (by omega)), hcurv]
  rw [htile2] at hstep
  rw [hstep]
  exact
    { hk := hk
      size_eq := by rw [size_apply]; exact inv.size_eq
      focus := by
        show st.focus_idx + 1 = _
        rw [hfoc, hP, hD1]
        rfl
      prev := by
        show some (st.focus_idx, v) = _
        rw [hfoc, hP, hD1]
        rfl
      pendSrc := by
        intro y hy
        rw [hP] at hy
        cases hy
        exact ⟨k, Nat.lt_succ_self k, hbv⟩
      defNone := fun h => by cases h
      defSome := by
        intro m' hm'
        cases hm'
        refine ⟨v, hP, ?_, Nat.lt_succ_self k, ?_, hbv⟩
        · rw [hD1]; omega
        · rw [hD1, ← hfoc]
          rfl
      boardLine := by
        intro j hj
        show (st.board.apply e1).tiles (pAt lt j) = _
        rw [hP, he1def, tiles_apply_slide]
        by_cases hjL : j = L
        · subst hjL
          rw [if_pos rfl, cloneVal_lt _ _ _ _ (by omega), hDgetL]
        · rw [if_neg (pAt_ne lt hnd (by omega) hLlen hjL)]
          by_cases hjm : j = m
          · subst hjm
            rw [if_pos rfl, cloneVal_ge_some_some _ _ _ _ (by omega) (by omega)]
          · rw [if_neg (pAt_ne lt hnd (by omega) hmlen hjm)]
            rcases Nat.lt_succ_iff_lt_or_eq.mp hj with h | h
            · have hbl := inv.boardLine j h
              rw [hpend] at hbl
              rcases Nat.lt_or_ge j L with hj2 | hj2
              · rw [cloneVal_lt _ _ _ _ hj2] at hbl
                rw [cloneVal_lt _ _ _ _ (by omega), hDgetlt j hj2]
                exact hbl
              · rw [cloneVal_ge_some_some _ _ _ _ hj2 hjm] at hbl
                rw [cloneVal_ge_some_some _ _ _ _ (by omega) (by omega)]
                exact hbl
            · subst h
              rw [cloneVal_dm_self _ _ _ (by omega)]
              exact hcurv
      boardRest := by
        intro j hj1 hj2
        show (st.board.apply e1).tiles (pAt lt j) = _
        rw [he1def, tiles_apply_slide,
          if_neg (pAt_ne lt hnd hj2 hLlen (by omega)),
          if_neg (pAt_ne lt hnd hj2 hmlen (by omega))]
        exact inv.boardRest j (by omega) hj2
      boardOff := by
        intro p hp
        show (st.board.apply e1).tiles p = _
        rw [he1def, tiles_apply_slide,
          if_neg (fun he => hp (by rw [he]; exact pAt_mem lt L hLlen)),
          if_neg (fun he => hp (by rw [he]; exact pAt_mem lt m hmlen))]
        exact inv.boardOff p hp
      replay := by
        show st.board.apply e1 = applyEvents (st.events ++ [e1]) b
        rw [applyEvents_append, ← inv.replay]
        rfl
      stable := by
        constructor
        · intro h
          exact absurd h.1 (by simp)
        · intro h
          have hkk := h k (Nat.lt_succ_self k)
          rw [hbv, hP, cloneVal_ge_some_none _ _ _ (by omega) (by omega)] at hkk
          cases hkk
      evDest := by
        intro e' he'
        rcases List.mem_append.mp he' with h | h
        · obtain ⟨j, hj, hde⟩ := inv.evDest e' h
          refine ⟨j, ?_, hde⟩
          show j < st.focus_idx + 1
          omega
        · rw [List.mem_singleton.mp h]
          refine ⟨L, ?_, rfl⟩
          show L < st.focus_idx + 1
          omega
      evSrc := by
        intro e' he' p hp
        rcases List.mem_append.mp he' with h | h
        · obtain ⟨j, hj, hpe⟩ := inv.evSrc e' h p hp
          exact ⟨j, Nat.lt_succ_of_lt hj, hpe⟩
        · rw [List.mem_singleton.mp h] at hp
          rw [List.mem_singleton.mp hp]
          exact ⟨m, by omega, rfl⟩
      destNodup := by
        rw [List.map_append]
        refine List.nodup_append.mpr ⟨inv.destNodup, List.nodup_singleton _, ?_⟩
        intro y hy hy'
        rw [show (List.map Action.destPos [e1]) = [pAt lt L] from rfl] at hy'
        rw [List.mem_singleton.mp hy'] at hy
        exact inv.prevFreeDest L x hprev hy
      srcNodup := by
        rw [List.map_append, List.flatten_append]
        refine List.nodup_append.mpr ⟨inv.srcNodup, ?_, ?_⟩
        · rw [show ((List.map Action.srcPositions [e1]).flatten) = [pAt lt m] from rfl]
          exact List.nodup_singleton _
        · intro y hy hy'
          rw [show ((List.map Action.srcPositions [e1]).flatten) = [pAt lt m] from rfl] at hy'
          rw [List.mem_singleton.mp hy'] at hy
          exact inv.defFreeSrc m rfl hy
      prevFreeDest := by
        intro s v' hsv hmem
        cases hsv
        rw [List.map_append] at hmem
        rcases List.mem_append.mp hmem with h | h
        · obtain ⟨e', he', hdeq⟩ := List.mem_map.mp h
          obtain ⟨j, hjf, hdj⟩ := inv.evDest e' he'
          have : j = st.focus_idx :=
            pAt_inj lt hnd (by omega) (by omega) (by rw [← hdj, hdeq])
          omega
        · rw [show (List.map Action.destPos [e1]) = [pAt lt L] from rfl] at h
          have := List.mem_singleton.mp h
          exact absurd this.symm (pAt_ne lt hnd hLlen (by omega) (by omega))
      prevFreeSrc := by
        intro s v' _ hdef'
        exact absurd hdef' (by simp)
      defFreeSrc := by
        intro m' hm' hmem
        cases hm'
        rw [List.map_append, List.flatten_append] at hmem
        rcases List.mem_append.mp hmem with h | h
        · obtain ⟨l, hl, hyl⟩ := List.mem_flatten.mp h
          obtain ⟨e', he', hle⟩ := List.mem_map.mp hl
          obtain ⟨j, hj, hpe⟩ := inv.evSrc e' he' _ (hle ▸ hyl)
          have : k = j := pAt_inj lt hnd hk (by omega) hpe
          omega
        · rw [show ((List.map Action.srcPositions [e1]).flatten) = [pAt lt m] from rfl] at h
          have := List.mem_singleton.mp h
          exact absurd this (pAt_ne lt hnd hk hmlen (by omega))
      mergeLater := by
        refine List.pairwise_append.mpr ⟨inv.mergeLater, List.pairwise_singleton _ _, ?_⟩
        intro ea hea eb heb hme
        rw [List.mem_singleton.mp heb]
        obtain ⟨s, hds, hsf, _hp, hd⟩ := inv.mergeDestLow ea hea hme
        rw [hds]
        have hsm : s < m := hd m rfl
        intro hmem
        rw [show Action.srcPositions e1 = [pAt lt m] from rfl] at hmem
        have := List.mem_singleton.mp hmem
        exact absurd this (pAt_ne lt hnd (by omega) hmlen (by omega))
      mergeDestLow := by
        intro e' he' hme
        rcases List.mem_append.mp he' with h | h
        · obtain ⟨s, hds, hsf, _hp, hd⟩ := inv.mergeDestLow e' h hme
          refine ⟨s, hds, ?_, ?_, ?_⟩
          · show s < st.focus_idx + 1
            omega
          · intro s' v' h'
            have : s' = st.focus_idx := by
              have := congrArg (fun o => Option.map Prod.fst o) h'
              simpa using this.symm
            have hsm : s < m := hd m rfl
            omega
          · intro m' hm'
            cases hm'
            have hsm : s < m := hd m rfl
            omega
        · rw [List.mem_singleton.mp h] at hme
          rw [he1def] at hme
          simp [Action.isMerge] at hme
      evValues := by
        intro e' he'
        rcases List.mem_append.mp he' with h | h
        · exact inv.evValues e' h
        · rw [List.mem_singleton.mp h, he1def]
          exact ⟨⟨pAt lt m, pAt_mem lt m hmlen, hbm.symm⟩, fun hc => Value.noConfusion hc⟩ }

/-- Invariant preservation: one full loop iteration. -/
theorem lineInv_step (b : Board) (lt : List Position) (hnd : lt.Nodup) (k : Nat)
    (hk : k < lt.length) (st : LineState) (dm : Option Nat)
    (inv : LineInv b lt k dm st) :
    ∃ dm', LineInv b lt (k + 1) dm' (lineStep lt st (pAt lt k)) := by
  have hplaced := spec_placed_le b lt k (le_of_lt hk)
  rcases hbv : b.tiles (pAt lt k) with _ | v
  · exact ⟨dm, lineInv_step_empty b lt k hk st dm inv hbv⟩
  · rcases hpend : specPend b lt k with _ | x
    · rw [hpend] at hplaced
      simp only [pendCount] at hplaced
      rcases Nat.eq_or_lt_of_le (by omega : (specDone b lt k).length ≤ k) with heq | hlt
      · exact ⟨none, lineInv_step_first_stay b lt hnd k hk st dm inv v hbv hpend heq.symm⟩
      · exact ⟨some k, lineInv_step_first_slide b lt hnd k hk st dm inv v hbv hpend hlt⟩
    · rw [hpend] at hplaced
      simp only [pendCount] at hplaced
      by_cases hm : x = v ∧ x < MAX_TILE_VALUE
      · obtain ⟨hxv, hxlt⟩ := hm
        subst hxv
        cases dm with
        | none => exact ⟨none, lineInv_step_merge_nodef b lt hnd k hk st inv x hpend hbv hxlt⟩
        | some m => exact ⟨none, lineInv_step_merge_def b lt hnd k hk st m inv x hpend hbv hxlt⟩
      · cases dm with
        | some m => exact ⟨some k, lineInv_step_slide_def b lt hnd k hk st m inv x v hpend hbv hm⟩
        | none =>
            rcases Nat.eq_or_lt_of_le (by omega : (specDone b lt k).length + 1 ≤ k)
              with heq | hlt
            · exact ⟨none, lineInv_step_stay b lt hnd k hk st none inv x v hpend hbv hm heq.symm⟩
            · exact ⟨some k, lineInv_step_slide_nodef b lt hnd k hk st inv x v hpend hbv hm hlt⟩

/-- The loop invariant holds after scanning any prefix of the line. -/
theorem lineInv_foldl (b : Board) (lt : List Position) (hnd : lt.Nodup) :
    ∀ k, k ≤ lt.length →
      ∃ dm, LineInv b lt k dm ((lt.take k).foldl (lineStep lt) ⟨[], b, 0, none, none, none⟩) := by
  intro k
  induction k with
  | zero => exact fun _ => ⟨none, lineInv_zero b lt⟩
  | succ k ih =>
      intro hk1
      have hk : k < lt.length := hk1
      obtain ⟨dm, inv⟩ := ih (le_of_lt hk)
      have htake : lt.take (k + 1) = lt.take k ++ [lt[k]] := by
        rw [List.take_succ, List.getElem?_eq_getElem hk]
        rfl
      rw [htake, List.foldl_append]
      have hp : lt[k] = pAt lt k := (List.getD_eq_getElem lt ⟨0, 0⟩ hk).symm
      rw [List.foldl_cons, List.foldl_nil, hp]
      exact lineInv_step b lt hnd k hk _ dm inv

/-- The loop invariant holds for the whole line scan. -/
theorem lineInv_full (b : Board) (lt : List Position) (hnd : lt.Nodup) :
    ∃ dm, LineInv b lt lt.length dm
      (lt.foldl (lineStep lt) ⟨[], b, 0, none, none, none⟩) := by
  obtain ⟨dm, inv⟩ := lineInv_foldl b lt hnd lt.length le_rfl
  rw [List.take_length] at inv
  exact ⟨dm, inv⟩

/-- The fold over a whole line computes the compact-and-merge-pairs
result. -/
theorem merged_eq (b : Board) (lt : List Position) :
    specDone b lt lt.length ++ optList (specPend b lt lt.length)
      = mergePairs (compactLine (lt.map b.tiles)) := by
  unfold specDone specPend
  rw [finalize_foldl_stepSpec]
  simp [optList, List.take_length]

/-- The final layout of a line scan is the classic 2048 result of the
line. -/
theorem cloneVal_eq_classic (b : Board) (lt : List Position) (j : Nat) (hj : j < lt.length) :
    cloneVal (specDone b lt lt.length) (specPend b lt lt.length) none j
      = (classicLineResult (lt.map b.tiles)).getD j Value.Empty := by
  have hm := merged_eq b lt
  have hplaced : (specDone b lt lt.length).length + pendCount (specPend b lt lt.length)
      ≤ lt.length := spec_placed_le b lt lt.length le_rfl
  have hlenm : (mergePairs (compactLine (lt.map b.tiles))).length
      = (specDone b lt lt.length).length + pendCount (specPend b lt lt.length) := by
    rw [← hm, List.length_append]
    cases hp : specPend b lt lt.length <;> simp [optList, pendCount]
  have htot : (classicLineResult (lt.map b.tiles)).length = lt.length := by
    unfold classicLineResult
    rw [List.length_append, List.length_map, List.length_replicate, List.length_map]
    omega
  rcases Nat.lt_or_ge j (mergePairs (compactLine (lt.map b.tiles))).length with hjm | hjm
  · have hgetm : (mergePairs (compactLine (lt.map b.tiles))).getD j 0
        = ((specDone b lt lt.length) ++ optList (specPend b lt lt.length)).getD j 0 := by
      rw [hm]
    have hgoal : (classicLineResult (lt.map b.tiles)).getD j Value.Empty
        = Value.Number ((mergePairs (compactLine (lt.map b.tiles))).getD j 0) := by
      unfold classicLineResult
      rw [List.getD_eq_getElem _ _ (by rw [← htot] at hj; exact (by
        unfold classicLineResult at hj; exact hj)),
        List.getElem_append_left (by simpa using hjm), List.getElem_map]
      rw [List.getD_eq_getElem _ _ hjm]
    rw [hgoal, hgetm]
    rcases Nat.lt_or_ge j (specDone b lt lt.length).length with hjd | hjd
    · rw [cloneVal_lt _ _ _ _ hjd]
      have h1 : (specDone b lt lt.length ++ optList (specPend b lt lt.length)).getD j 0
          = (specDone b lt lt.length).getD j 0 := by
        rw [List.getD_eq_getElem _ _
            (show j < (specDone b lt lt.length ++ optList (specPend b lt lt.length)).length by
              rw [List.length_append]; omega),
          List.getElem_append_left hjd]
        exact (List.getD_eq_getElem _ _ hjd).symm
      rw [h1]
    · cases hp : specPend b lt lt.length with
      | none =>
          rw [hp] at hlenm
          simp only [pendCount] at hlenm
          omega
      | some x =>
          rw [hp] at hlenm
          simp only [pendCount] at hlenm
          have hjd2 : j = (specDone b lt lt.length).length := by omega
          subst hjd2
          have h1 : (specDone b lt lt.length ++ optList (some x)).getD
              (specDone b lt lt.length).length 0 = x := by
            rw [List.getD_eq_getElem _ _
                (show (specDone b lt lt.length).length
                    < (specDone b lt lt.length ++ optList (some x)).length by
                  rw [List.length_append]; simp [optList]),
              List.getElem_append_right (le_refl _)]
            simp [optList]
          rw [cloneVal_slot_none, h1]
  · have hgoal : (classicLineResult (lt.map b.tiles)).getD j Value.Empty = Value.Empty := by
      unfold classicLineResult
      rw [List.getD_eq_getElem _ _ (by
        rw [List.length_append, List.length_map, List.length_replicate, List.length_map]
        omega),
        List.getElem_append_right (by simpa using hjm)]
      simp
    rw [hgoal]
    cases hp : specPend b lt lt.length with
    | none =>
        rw [hp] at hlenm
        simp only [pendCount] at hlenm
        exact cloneVal_ge_none _ _ _ (by omega)
    | some x =>
        rw [hp] at hlenm
        simp only [pendCount] at hlenm
        exact cloneVal_ge_some_none _ _ _ (by omega) (by omega)

/-- Summary of one line's planning pass: applying the emitted events
realizes the classic 2048 result on the line and changes nothing else; the
pass emits no event exactly when the line is already in its classic form;
all events stay within the line, write each destination at most once,
consume each source at most once, never feed a merge result into a later
event, and carry only line values (merges pairing equal below-maximum
values into their sum). -/
theorem slide_and_merge_line_main (b : Board) (lt : List Position) (hnd : lt.Nodup) :
    (∀ j, j < lt.length →
        (applyEvents (b.slide_and_merge_line lt) b).tiles (pAt lt j)
          = (classicLineResult (lt.map b.tiles)).getD j Value.Empty)
    ∧ (∀ p, p ∉ lt → (applyEvents (b.slide_and_merge_line lt) b).tiles p = b.tiles p)
    ∧ (b.slide_and_merge_line lt = []
        ↔ ∀ j, j < lt.length →
            b.tiles (pAt lt j) = (classicLineResult (lt.map b.tiles)).getD j Value.Empty)
    ∧ (∀ e ∈ b.slide_and_merge_line lt, ∀ p ∈ e.touchedPositions, p ∈ lt)
    ∧ ((b.slide_and_merge_line lt).map Action.destPos).Nodup
    ∧ (((b.slide_and_merge_line lt).map Action.srcPositions).flatten).Nodup
    ∧ List.Pairwise (fun e1 e2 => e1.isMerge = true → Action.destPos e1 ∉ e2.srcPositions)
        (b.slide_and_merge_line lt)
    ∧ (∀ e ∈ b.slide_and_merge_line lt, ActionValuesOK b lt e) := by
  obtain ⟨dm, inv⟩ := lineInv_full b lt hnd
  set st := lt.foldl (lineStep lt) ⟨[], b, 0, none, none, none⟩ with hst
  have hplaced := spec_placed_le b lt lt.length le_rfl
  have hfocle : st.focus_idx ≤ lt.length := by rw [inv.focus]; exact hplaced
  cases dm with
  | none =>
      have hdefn : st.deferred = none := inv.defNone rfl
      have hflush : lineFlush st = st := by
        unfold lineFlush
        rw [hdefn]
      have hevs : b.slide_and_merge_line lt = st.events := by
        show (lineFlush st).events = st.events
        rw [hflush]
      rw [hevs]
      have hboard : applyEvents st.events b = st.board := inv.replay.symm
      refine ⟨?_, ?_, ?_, ?_, inv.destNodup, inv.srcNodup, inv.mergeLater, inv.evValues⟩
      · intro j hj
        rw [hboard, ← cloneVal_eq_classic b lt j hj]
        have := inv.boardLine j hj
        exact this
      · intro p hp
        rw [hboard]
        exact inv.boardOff p hp
      · have hstable := inv.stable
        constructor
        · intro h j hj
          rw [← cloneVal_eq_classic b lt j hj]
          exact hstable.mp ⟨h, hdefn⟩ j hj
        · intro h
          exact (hstable.mpr (fun j hj => by
            rw [cloneVal_eq_classic b lt j hj]
            exact h j hj)).1
      · intro e he p hp
        rw [show e.touchedPositions = e.srcPositions ++ [e.destPos] from rfl] at hp
        rcases List.mem_append.mp hp with h | h
        · obtain ⟨j, hj, hpe⟩ := inv.evSrc e he p h
          rw [hpe]
          exact pAt_mem lt j (by omega)
        · rw [List.mem_singleton.mp h]
          obtain ⟨j, hj, hde⟩ := inv.evDest e he
          rw [hde]
          exact pAt_mem lt j (by omega)
  | some m =>
      obtain ⟨x, hpend, hm1, hm2, hdef, hbm⟩ := inv.defSome m rfl
      have hprev : st.prev = some ((specDone b lt lt.length).length, x) := by
        rw [inv.prev, hpend]
        rfl
      set L := (specDone b lt lt.length).length with hLdef
      have hLlen : L < lt.length := by omega
      have hmlen : m < lt.length := hm2
      set e2 := Action.SlideTile ⟨Value.Number x, pAt lt m⟩ (pAt lt L) with he2def
      have hflush : lineFlush st =
          { st with
            events := st.events ++ [e2]
            board := st.board.apply e2
            deferred := none } := by
        unfold lineFlush
        rw [hdef]
      have hevs : b.slide_and_merge_line lt = st.events ++ [e2] := by
        show (lineFlush st).events = _
        rw [hflush]
      rw [hevs]
      have hboard : applyEvents (st.events ++ [e2]) b = st.board.apply e2 := by
        rw [applyEvents_append, ← inv.replay]
        rfl
      have hpc : pendCount (specPend b lt lt.length) = 1 := by rw [hpend]; rfl
      refine ⟨?_, ?_, ?_, ?_, ?_, ?_, ?_, ?_⟩
      · intro j hj
        rw [hboard, ← cloneVal_eq_classic b lt j hj, he2def, tiles_apply_slide]
        by_cases hjL : j = L
        · subst hjL
          rw [if_pos rfl, hpend]
          exact (cloneVal_slot_none _ _).symm
        · rw [if_neg (pAt_ne lt hnd hj hLlen hjL)]
          by_cases hjm : j = m
          · subst hjm
            rw [if_pos rfl, hpend, cloneVal_ge_some_none _ _ _ (by omega) (by omega)]
          · rw [if_neg (pAt_ne lt hnd hj hmlen hjm)]
            have hbl := inv.boardLine j hj
            rw [hpend] at hbl
            rcases Nat.lt_or_ge j L with hj2 | hj2
            · rw [cloneVal_lt _ _ _ _ hj2] at hbl
              rw [hpend, cloneVal_lt _ _ _ _ hj2]
              exact hbl
            · rw [cloneVal_ge_some_some _ _ _ _ hj2 hjm] at hbl
              rw [hpend, cloneVal_ge_some_none _ _ _ hj2 hjL]
              exact hbl
      · intro p hp
        rw [hboard, he2def, tiles_apply_slide,
          if_neg (fun he => hp (by rw [he]; exact pAt_mem lt L hLlen)),
          if_neg (fun he => hp (by rw [he]; exact pAt_mem lt m hmlen))]
        exact inv.boardOff p hp
      · constructor
        · intro h
          exact absurd h (by simp)
        · intro h
          have hstable := (inv.stable.mpr (fun j hj => by
            rw [cloneVal_eq_classic b lt j hj]
            exact h j hj)).2
          rw [hdef] at hstable
          cases hstable
      · intro e he p hp
        rw [show e.touchedPositions = e.srcPositions ++ [e.destPos] from rfl] at hp
        rcases List.mem_append.mp hp with h | h
        · rcases List.mem_append.mp he with he' | he'
          · obtain ⟨j, hj, hpe⟩ := inv.evSrc e he' p h
            rw [hpe]
            exact pAt_mem lt j (by omega)
          · rw [List.mem_singleton.mp he', he2def] at h
            rw [List.mem_singleton.mp h]
            exact pAt_mem lt m hmlen
        · rw [List.mem_singleton.mp h]
          rcases List.mem_append.mp he with he' | he'
          · obtain ⟨j, hj, hde⟩ := inv.evDest e he'
            rw [hde]
            exact pAt_mem lt j (by omega)
          · rw [List.mem_singleton.mp he', he2def]
            exact pAt_mem lt L hLlen
      · rw [List.map_append]
        refine List.nodup_append.mpr ⟨inv.destNodup, List.nodup_singleton _, ?_⟩
        intro y hy hy'
        rw [show (List.map Action.destPos [e2]) = [pAt lt L] from rfl] at hy'
        rw [List.mem_singleton.mp hy'] at hy
        exact inv.prevFreeDest L x hprev hy
      · rw [List.map_append, List.flatten_append]
        refine List.nodup_append.mpr ⟨inv.srcNodup, ?_, ?_⟩
        · rw [show ((List.map Action.srcPositions [e2]).flatten) = [pAt lt m] from rfl]
          exact List.nodup_singleton _
        · intro y hy hy'
          rw [show ((List.map Action.srcPositions [e2]).flatten) = [pAt lt m] from rfl] at hy'
          rw [List.mem_singleton.mp hy'] at hy
          exact inv.defFreeSrc m rfl hy
      · refine List.pairwise_append.mpr ⟨inv.mergeLater, List.pairwise_singleton _ _, ?_⟩
        intro ea hea eb heb hme
        rw [List.mem_singleton.mp heb]
        obtain ⟨s, hds, hsf, _hp, hd⟩ := inv.mergeDestLow ea hea hme
        rw [hds]
        have hsm : s < m := hd m rfl
        intro hmem
        rw [show Action.srcPositions e2 = [pAt lt m] from rfl] at hmem
        have := List.mem_singleton.mp hmem
        exact absurd this (pAt_ne lt hnd (by omega) hmlen (by omega))
      · intro e he
        rcases List.mem_append.mp he with he' | he'
        · exact inv.evValues e he'
        · rw [List.mem_singleton.mp he', he2def]
          exact ⟨⟨pAt lt m, pAt_mem lt m hmlen, hbm.symm⟩, fun hc => Value.noConfusion hc⟩

/-- Folding list-append equals flattening the mapped lists. -/
theorem foldl_append_flatten {α β : Type} (f : α → List β) :
    ∀ (ls : List α) (init : List β),
      ls.foldl (fun acc l => acc ++ f l) init = init ++ (ls.map f).flatten
  | [], init => by simp
  | l :: t, init => by
      rw [List.foldl_cons, foldl_append_flatten f t, List.map_cons, List.flatten_cons,
        List.append_assoc]

/-- The direction-level plan is the concatenation of the per-line plans,
in traversal-map line order. -/
theorem plan_eq_flatten (b : Board) (d : Direction) :
    b.plan_slide_and_merge d
      = ((Position.generate_traversal_map b.size d).map
          (fun lt => b.slide_and_merge_line lt)).flatten := by
  rw [Board.plan_slide_and_merge, foldl_append_flatten]
  rfl

/-- The flattened traversal map never repeats a position. -/
theorem traversal_flatten_nodup (n : Nat) (d : Direction) :
    ((Position.generate_traversal_map n d).flatten).Nodup := by
  cases d <;> exact generate_line_traversal_nodup n _ _

/-- Each traversal line is duplicate-free. -/
theorem traversal_lines_nodup (n : Nat) (d : Direction) :
    ∀ lt ∈ Position.generate_traversal_map n d, lt.Nodup :=
  (List.nodup_flatten.mp (traversal_flatten_nodup n d)).1

/-- Traversal lines are pairwise disjoint. -/
theorem traversal_lines_disjoint (n : Nat) (d : Direction) :
    List.Pairwise List.Disjoint (Position.generate_traversal_map n d) :=
  (List.nodup_flatten.mp (traversal_flatten_nodup n d)).2

/-- A traversal-line position is a grid position. -/
theorem line_mem_grid (n : Nat) (d : Direction) (lt : List Position) (p : Position)
    (hlt : lt ∈ Position.generate_traversal_map n d) (hp : p ∈ lt) :
    p ∈ gridPositions n := by
  have hmem : p ∈ (Position.generate_traversal_map n d).flatten :=
    List.mem_flatten.mpr ⟨lt, hlt, hp⟩
  have hgrid : p.row < n ∧ p.col < n := by
    cases d <;> exact (generate_line_traversal_mem n _ _ p).mp hmem
  exact (generate_line_traversal_mem n false false p).mpr hgrid

/-- Applying the whole direction plan acts on each line exactly as that
line's own plan does. -/
theorem plan_apply_at_line (b : Board) (d : Direction) (lt : List Position)
    (hlt : lt ∈ Position.generate_traversal_map b.size d) (j : Nat) (hj : j < lt.length) :
    (applyEvents (b.plan_slide_and_merge d) b).tiles (pAt lt j)
      = (applyEvents (b.slide_and_merge_line lt) b).tiles (pAt lt j) := by
  obtain ⟨pre, post, hsplit⟩ := List.append_of_mem hlt
  have hdisj := traversal_lines_disjoint b.size d
  rw [hsplit] at hdisj
  have hdisj2 := List.pairwise_append.mp hdisj
  have hpremem : ∀ lt' ∈ pre, ∀ q ∈ lt', q ∉ lt := by
    intro lt' h1 q h2
    exact fun hq => (hdisj2.2.2 lt' h1 lt (List.mem_cons_self lt post)) h2 hq
  have hpostmem : ∀ lt' ∈ post, ∀ q ∈ lt, q ∉ lt' := by
    intro lt' h1 q h2
    exact ((List.pairwise_cons.mp hdisj2.2.1).1 lt' h1) h2
  have hpmem : pAt lt j ∈ lt := pAt_mem lt j hj
  have hplan : b.plan_slide_and_merge d
      = ((pre.map (fun l => b.slide_and_merge_line l)).flatten
          ++ (b.slide_and_merge_line lt
            ++ ((post.map (fun l => b.slide_and_merge_line l)).flatten))) := by
    rw [plan_eq_flatten, hsplit]
    simp
  have htouched : ∀ lt' ∈ Position.generate_traversal_map b.size d,
      ∀ e ∈ b.slide_and_merge_line lt', ∀ p ∈ e.touchedPositions, p ∈ lt' := by
    intro lt' h1
    exact (slide_and_merge_line_main b lt' (traversal_lines_nodup b.size d lt' h1)).2.2.2.1
  rw [hplan, applyEvents_append, applyEvents_append]
  have hpost : ∀ e ∈ (post.map (fun l => b.slide_and_merge_line l)).flatten,
      pAt lt j ∉ e.touchedPositions := by
    intro e he hpe
    obtain ⟨l', hl', hel⟩ := List.mem_flatten.mp he
    obtain ⟨lt', hlt', hfeq⟩ := List.mem_map.mp hl'
    have hlt'mem : lt' ∈ Position.generate_traversal_map b.size d := by
      rw [hsplit]
      exact List.mem_append_right pre (List.mem_cons_of_mem lt hlt')
    have : pAt lt j ∈ lt' := htouched lt' hlt'mem e (hfeq ▸ hel) _ hpe
    exact (hpostmem lt' hlt' _ hpmem) this
  rw [applyEvents_untouched _ _ _ hpost]
  have hpre : ∀ e ∈ (pre.map (fun l => b.slide_and_merge_line l)).flatten,
      pAt lt j ∉ e.touchedPositions := by
    intro e he hpe
    obtain ⟨l', hl', hel⟩ := List.mem_flatten.mp he
    obtain ⟨lt', hlt', hfeq⟩ := List.mem_map.mp hl'
    have hlt'mem : lt' ∈ Position.generate_traversal_map b.size d := by
      rw [hsplit]
      exact List.mem_append_left (lt :: post) hlt'
    have : pAt lt j ∈ lt' := htouched lt' hlt'mem e (hfeq ▸ hel) _ hpe
    exact (hpremem lt' hlt' _ this) hpmem
  exact applyEvents_tiles_congr _ _ _ _ (applyEvents_untouched _ _ _ hpre)

/-- The full plan realizes the classic result on every line. -/
theorem plan_apply_classic (b : Board) (d : Direction) (lt : List Position)
    (hlt : lt ∈ Position.generate_traversal_map b.size d) (j : Nat) (hj : j < lt.length) :
    (applyEvents (b.plan_slide_and_merge d) b).tiles (pAt lt j)
      = (classicLineResult (lt.map b.tiles)).getD j Value.Empty := by
  rw [plan_apply_at_line b d lt hlt j hj]
  exact (slide_and_merge_line_main b lt (traversal_lines_nodup b.size d lt hlt)).1 j hj

/-- The plan is empty exactly when every line is already in classic form. -/
theorem plan_empty_iff (b : Board) (d : Direction) :
    b.plan_slide_and_merge d = []
      ↔ ∀ lt ∈ Position.generate_traversal_map b.size d, ∀ j, j < lt.length →
          b.tiles (pAt lt j) = (classicLineResult (lt.map b.tiles)).getD j Value.Empty := by
  rw [plan_eq_flatten, List.flatten_eq_nil_iff]
  constructor
  · intro h lt hlt j hj
    have hline : b.slide_and_merge_line lt = [] :=
      h _ (List.mem_map_of_mem (fun l => b.slide_and_merge_line l) hlt)
    exact ((slide_and_merge_line_main b lt
      (traversal_lines_nodup b.size d lt hlt)).2.2.1.mp hline) j hj
  · intro h l hl
    obtain ⟨lt, hlt, hfeq⟩ := List.mem_map.mp hl
    rw [← hfeq]
    exact (slide_and_merge_line_main b lt
      (traversal_lines_nodup b.size d lt hlt)).2.2.1.mpr (h lt hlt)

/-- Merging pairs never lengthens a list. -/
theorem mergePairs_length_le : ∀ l : List Nat, (mergePairs l).length ≤ l.length
  | [] => by simp [mergePairs]
  | [a] => by simp [mergePairs]
  | a :: c :: rest => by
      rw [mergePairs]
      by_cases h : a = c ∧ a < 2048
      · rw [if_pos h]
        have := mergePairs_length_le rest
        simp only [List.length_cons]
        omega
      · rw [if_neg h]
        have := mergePairs_length_le (c :: rest)
        simp only [List.length_cons] at *
        omega

/-- The classic line result keeps the line length. -/
theorem classicLineResult_length (vs : List Value) :
    (classicLineResult vs).length = vs.length := by
  have h1 : (compactLine vs).length ≤ vs.length := List.length_filterMap_le _ _
  have h2 : (mergePairs (compactLine vs)).length ≤ vs.length :=
    le_trans (mergePairs_length_le _) h1
  rw [classicLineResult, List.length_append, List.length_map, List.length_replicate]
  omega

/-- Positions outside every traversal line are untouched by the plan. -/
theorem plan_untouched_off_lines (b : Board) (d : Direction) (p : Position)
    (hp : ∀ lt ∈ Position.generate_traversal_map b.size d, p ∉ lt) :
    (applyEvents (b.plan_slide_and_merge d) b).tiles p = b.tiles p := by
  apply applyEvents_untouched
  intro e he hpe
  rw [plan_eq_flatten] at he
  obtain ⟨l', hl', hel⟩ := List.mem_flatten.mp he
  obtain ⟨lt, hlt, hfeq⟩ := List.mem_map.mp hl'
  have : p ∈ lt :=
    (slide_and_merge_line_main b lt (traversal_lines_nodup b.size d lt hlt)).2.2.2.1
      e (hfeq ▸ hel) p hpe
  exact hp lt hlt this

/-- C1: for every 4x4 board of admissible cells and every direction,
applying the actions of `plan_slide_and_merge` in order yields exactly the
classic 2048 result on every traversal line — non-empty tiles compacted
toward index 0 in scan order, consecutive equal pairs below 2048 merged
exactly once into the doubled value pairing from the compaction edge
outward — and cells on no line of that direction are unchanged. -/
theorem plan_realizes_classic (b : Board) (h4 : b.size = 4) (_hadm : b.Admissible)
    (d : Direction) :
    (∀ lt ∈ Position.generate_traversal_map 4 d,
        lt.map (applyEvents (b.plan_slide_and_merge d) b).tiles
          = classicLineResult (lt.map b.tiles))
    ∧ (∀ p : Position, (∀ lt ∈ Position.generate_traversal_map 4 d, p ∉ lt) →
        (applyEvents (b.plan_slide_and_merge d) b).tiles p = b.tiles p) := by
  constructor
  · intro lt hlt
    have hlt' : lt ∈ Position.generate_traversal_map b.size d := by rw [h4]; exact hlt
    have hlen : (classicLineResult (lt.map b.tiles)).length = lt.length := by
      rw [classicLineResult_length, List.length_map]
    apply List.ext_getElem
    · rw [List.length_map, hlen]
    · intro j hj1 hj2
      have hjlen : j < lt.length := by rw [List.length_map] at hj1; exact hj1
      have hstep := plan_apply_classic b d lt hlt' j hjlen
      rw [List.getElem_map]
      have hpj : pAt lt j = lt[j] := List.getD_eq_getElem lt _ hjlen
      rw [← hpj, hstep]
      exact List.getD_eq_getElem _ _ hj2
  · intro p hp
    apply plan_untouched_off_lines
    rw [h4]
    exact hp

/-- C1 witness: a concrete admissible 4x4 board and direction. -/
theorem plan_realizes_classic_witness :
    ((Board.new 4).set_value ⟨0, 0⟩ (Value.Number 2)).size = 4
    ∧ ((Board.new 4).set_value ⟨0, 0⟩ (Value.Number 2)).Admissible
    ∧ (∀ lt ∈ Position.generate_traversal_map 4 Direction.Right,
        lt.map (applyEvents
            (((Board.new 4).set_value ⟨0, 0⟩ (Value.Number 2)).plan_slide_and_merge
              Direction.Right)
            ((Board.new 4).set_value ⟨0, 0⟩ (Value.Number 2))).tiles
          = classicLineResult (lt.map ((Board.new 4).set_value ⟨0, 0⟩ (Value.Number 2)).tiles)) :=
  ⟨rfl, by decide,
    (plan_realizes_classic _ rfl (by decide) Direction.Right).1⟩

/-- C4: for every board of admissible cells and every direction,
`slide_and_merge` reports a move exactly when the plan is non-empty, which
holds exactly when the board state after applying the plan differs from
the state before. -/
theorem move_reported_iff_changed (b : Board) (_hadm : b.Admissible) (d : Direction) :
    ((b.slide_and_merge d).1 = true ↔ b.plan_slide_and_merge d ≠ [])
    ∧ (b.plan_slide_and_merge d ≠ [] ↔ ¬ b.gridEq (b.slide_and_merge d).2) := by
  constructor
  · show (!(b.plan_slide_and_merge d).isEmpty) = true ↔ _
    rw [Bool.not_eq_eq_eq_not, Bool.not_true]
    simp [List.isEmpty_iff]
  · have hsnd : (b.slide_and_merge d).2 = applyEvents (b.plan_slide_and_merge d) b := rfl
    constructor
    · intro hne hgr
      apply hne
      rw [plan_empty_iff]
      intro lt hlt j hj
      have hpg : pAt lt j ∈ gridPositions b.size :=
        line_mem_grid b.size d lt (pAt lt j) hlt (pAt_mem lt j hj)
      rw [hgr (pAt lt j) hpg, hsnd]
      exact plan_apply_classic b d lt hlt j hj
    · intro hgr hpl
      apply hgr
      intro p _
      rw [hsnd, hpl]
      rfl

/-- C4 witness: a concrete admissible board where the move changes the
state. -/
theorem move_reported_iff_changed_witness :
    ((Board.new 4).set_value ⟨0, 1⟩ (Value.Number 2)).Admissible
    ∧ ((((Board.new 4).set_value ⟨0, 1⟩ (Value.Number 2)).slide_and_merge Direction.Left).1 = true
        ↔ ((Board.new 4).set_value ⟨0, 1⟩ (Value.Number 2)).plan_slide_and_merge Direction.Left
            ≠ []) :=
  ⟨by decide, (move_reported_iff_changed _ (by decide) Direction.Left).1⟩

/-- C8: within the action list planned for a single traversal line, each
destination position is written by at most one action, each source
position is consumed by at most one action (so each source tile, value at
its pre-move position, is consumed at most once), and the tile a merge
produces at its destination is never a source of another merge emitted
later in the same planning pass. -/
theorem line_plan_no_conflicts (b : Board) (d : Direction) (lt : List Position)
    (hlt : lt ∈ Position.generate_traversal_map b.size d) :
    ((b.slide_and_merge_line lt).map Action.destPos).Nodup
    ∧ (((b.slide_and_merge_line lt).map Action.srcPositions).flatten).Nodup
    ∧ List.Pairwise
        (fun e1 e2 => e1.isMerge = true → e2.isMerge = true →
          Action.destPos e1 ∉ e2.srcPositions)
        (b.slide_and_merge_line lt) := by
  have hmain := slide_and_merge_line_main b lt (traversal_lines_nodup b.size d lt hlt)
  refine ⟨hmain.2.2.2.2.1, hmain.2.2.2.2.2.1, ?_⟩
  exact hmain.2.2.2.2.2.2.1.imp (fun h h1 _ => h h1)

/-- C8 witness: a concrete board and traversal line with two merges. -/
theorem line_plan_no_conflicts_witness :
    [(⟨0, 0⟩ : Position), ⟨0, 1⟩, ⟨0, 2⟩, ⟨0, 3⟩]
        ∈ Position.generate_traversal_map
            ((((Board.new 4).set_value ⟨0, 0⟩ (Value.Number 2)).set_value ⟨0, 1⟩
              (Value.Number 2)).size) Direction.Left
    ∧ ((((((Board.new 4).set_value ⟨0, 0⟩ (Value.Number 2)).set_value ⟨0, 1⟩
          (Value.Number 2)).slide_and_merge_line
            [⟨0, 0⟩, ⟨0, 1⟩, ⟨0, 2⟩, ⟨0, 3⟩]).map Action.destPos).Nodup) :=
  ⟨by decide,
    (line_plan_no_conflicts _ Direction.Left _ (by decide)).1⟩

/-- `Board::apply` keeps the grid admissible whenever every value the
action writes is admissible. -/
theorem apply_admissible (b0 : Board) (e : Action) (hb0 : b0.Admissible)
    (hm : ∀ t1 t2 dest v, e = Action.MergeTiles t1 t2 dest v → Value.Admissible v)
    (hs : ∀ t dest, e = Action.SlideTile t dest → Value.Admissible t.value)
    (hp : ∀ t, e = Action.SpawnRandomTile t → Value.Admissible t.value) :
    (b0.apply e).Admissible := by
  intro q hq
  rw [size_apply] at hq
  cases e with
  | SpawnRandomTile t =>
      rw [tiles_apply_spawn]
      split_ifs
      · exact hp t rfl
      · exact hb0 q hq
  | SlideTile t dest =>
      rw [tiles_apply_slide]
      split_ifs
      · exact hs t dest rfl
      · exact Or.inl rfl
      · exact hb0 q hq
  | MergeTiles t1 t2 dest v =>
      rw [tiles_apply_merge]
      split_ifs
      · exact hm t1 t2 dest v rfl
      · exact Or.inl rfl
      · exact Or.inl rfl
      · exact hb0 q hq

/-- Every planned action's values are as `ActionValuesOK` describes, for
some traversal line of the plan's direction. -/
theorem mem_plan_values (b : Board) (d : Direction) (e : Action)
    (he : e ∈ b.plan_slide_and_merge d) :
    ∃ lt ∈ Position.generate_traversal_map b.size d, ActionValuesOK b lt e := by
  rw [plan_eq_flatten] at he
  obtain ⟨l', hl', hel⟩ := List.mem_flatten.mp he
  obtain ⟨lt, hlt, hfeq⟩ := List.mem_map.mp hl'
  exact ⟨lt, hlt,
    (slide_and_merge_line_main b lt
      (traversal_lines_nodup b.size d lt hlt)).2.2.2.2.2.2.2 e (hfeq ▸ hel)⟩

/-- Doubling an admissible number below 2048 stays admissible. -/
theorem admissible_double (x : Nat) (hx : Value.Admissible (Value.Number x))
    (hlt : x < MAX_TILE_VALUE) : Value.Admissible (Value.Number (x + x)) := by
  rcases hx with h | ⟨k, hk1, hk11, hkx⟩
  · exact absurd h (by simp)
  · obtain rfl : x = 2 ^ k := by injection hkx
    have hk10 : k < 11 := by
      by_contra hge
      have : k = 11 := by omega
      subst this
      exact absurd hlt (by decide)
    refine Or.inr ⟨k + 1, by omega, by omega, ?_⟩
    rw [pow_succ, Nat.mul_two]

/-- C9: admissibility ("every cell Empty or a power of two between 2 and
2048") holds for a newly constructed board, is preserved by applying any
action `plan_slide_and_merge` returns (no merge result exceeds 2048), and
is preserved by applying any action `plan_spawn_random_tile` returns
(values 2 or 4 only). -/
theorem admissible_invariant_preserved :
    (∀ n : Nat, (Board.new n).Admissible)
    ∧ (∀ (b : Board) (d : Direction) (e : Action), b.Admissible →
        e ∈ b.plan_slide_and_merge d → (b.apply e).Admissible)
    ∧ (∀ (σ : Type) (g : RandGen σ) (b : Board) (s : σ) (a : Action) (s' : σ),
        b.Admissible → b.plan_spawn_random_tile g s = (some a, s') →
          (b.apply a).Admissible) := by
  refine ⟨?_, ?_, ?_⟩
  · intro n p _
    exact Or.inl rfl
  · intro b d e hadm he
    obtain ⟨lt, hlt, hok⟩ := mem_plan_values b d e he
    apply apply_admissible b e hadm
    · intro t1 t2 dest v heq
      subst heq
      obtain ⟨x, _, _, hxlt, ⟨p, hpl, hpv⟩, hv⟩ := hok
      have hpadm : Value.Admissible (b.tiles p) :=
        hadm p (line_mem_grid b.size d lt p hlt hpl)
      rw [hpv] at hpadm
      rw [hv]
      exact admissible_double x hpadm hxlt
    · intro t dest heq
      subst heq
      obtain ⟨⟨p, hpl, hpv⟩, hne⟩ := hok
      have hpadm : Value.Admissible (b.tiles p) :=
        hadm p (line_mem_grid b.size d lt p hlt hpl)
      rw [hpv]
      exact hpadm
    · intro t heq
      subst heq
      exact absurd hok id
  · intro σ g b s a s' hadm hspawn
    rw [Board.plan_spawn_random_tile] at hspawn
    by_cases hemp : b.emptyPositions.isEmpty = false
    · rw [if_pos hemp] at hspawn
      obtain ⟨ha, _⟩ := Prod.mk.inj hspawn
      have ha' := Option.some.inj ha
      apply apply_admissible b a hadm
      · intro t1 t2 dest v heq
        rw [heq] at ha'
        exact absurd ha' (by simp)
      · intro t dest heq
        rw [heq] at ha'
        exact absurd ha' (by simp)
      · intro t heq
        rw [heq] at ha'
        have hval : t.value
            = Value.Number (if (g.gen_bool (g.gen_range b.emptyPositions.length s).2).1
                then 2 else 4) := by
          rw [← Action.SpawnRandomTile.inj ha']
        rw [hval]
        by_cases hb : (g.gen_bool (g.gen_range b.emptyPositions.length s).2).1
        · rw [if_pos hb]
          exact Or.inr ⟨1, by omega, by omega, rfl⟩
        · rw [if_neg hb]
          exact Or.inr ⟨2, by omega, by omega, rfl⟩
    · rw [if_neg hemp] at hspawn
      exact absurd (Prod.mk.inj hspawn).1 (by simp)

/-- C9 witness: concrete instances for all three conjuncts. -/
theorem admissible_invariant_preserved_witness :
    (Board.new 4).Admissible
    ∧ ((Board.new 4).set_value ⟨0, 1⟩ (Value.Number 4)).Admissible
    ∧ (Action.SlideTile ⟨Value.Number 4, ⟨0, 1⟩⟩ ⟨0, 0⟩
        ∈ ((Board.new 4).set_value ⟨0, 1⟩ (Value.Number 4)).plan_slide_and_merge
            Direction.Left)
    ∧ ((((Board.new 4).set_value ⟨0, 1⟩ (Value.Number 4)).apply
        (Action.SlideTile ⟨Value.Number 4, ⟨0, 1⟩⟩ ⟨0, 0⟩)).Admissible) :=
  ⟨admissible_invariant_preserved.1 4, by decide, by decide,
    admissible_invariant_preserved.2.1 _ Direction.Left _ (by decide) (by decide)⟩

end Rust2048
